import Mathlib

/-!
Verification of the gpt-sovits-rust text-to-speech front-end and decode loop.

The Rust sources are shallowly embedded: pure string functions become Lean
functions over `String` / `List Char`; the regex-driven replacement functions of
the normalizers are embedded at the capture level (the function applied to one
match, with the capture groups as arguments); the external collaborators
(the lingua language detector, the jieba segmenter, the ONNX inference
sessions, the dictionaries loaded from JSON at run time) are parameters of the
embedded functions, so theorems quantify over their behaviour.

Each claim's theorem carries a doc comment naming the claim.
-/

namespace GptSovits

/-! ## Generic helpers -/

/-- Modify the last element of a list (identity on the empty list).  Models the
Rust pattern `if let Some(last) = v.last_mut() { ... }`. -/
def modifyLast {α : Type} (l : List α) (f : α → α) : List α :=
  match l with
  | [] => []
  | [a] => [f a]
  | a :: b :: rest => a :: modifyLast (b :: rest) f

/-- Trim all leading and trailing copies of a character, modelling Rust
`str::trim_matches(c)`. -/
def trimCharBoth (c : Char) (l : List Char) : List Char :=
  ((l.dropWhile (· = c)).reverse.dropWhile (· = c)).reverse

/-- `substring` crate semantics: the characters from index `s` (inclusive) to
index `e` (exclusive), both clamped to the string length. -/
def substringClamp (l : List Char) (s e : Nat) : List Char :=
  (l.take e).drop s

/-- Split at every occurrence of one character, keeping empty pieces: models
Rust `str::split(pat)` for a one-character pattern. -/
def splitChar (c : Char) : List Char → List (List Char)
  | [] => [[]]
  | x :: rest =>
    match splitChar c rest with
    | [] => [[x]]
    | h :: t => if x = c then [] :: h :: t else (x :: h) :: t

/-- Join pieces with one character between them: models `Vec::join` for a
one-character separator. -/
def joinChar (c : Char) : List (List Char) → List Char
  | [] => []
  | [x] => x
  | x :: y :: rest => x ++ c :: joinChar c (y :: rest)

/-- Replace every (non-overlapping, left-to-right) occurrence of the
two-character pattern `a b` by `rep`: models `str::replace` for the
two-character patterns used in the sources. -/
def replacePairWith (a b : Char) (rep : List Char) : List Char → List Char
  | [] => []
  | [x] => [x]
  | x :: y :: rest =>
    if x = a ∧ y = b then rep ++ replacePairWith a b rep rest
    else x :: replacePairWith a b rep (y :: rest)

/-- Replace every occurrence of one character by another: models
`str::replace` for a one-character pattern with a one-character
replacement. -/
def replaceChar (c r : Char) (l : List Char) : List Char :=
  l.map (fun x => if x = c then r else x)

/-- Rust `str::trim` (whitespace at both ends). -/
def trimWs (l : List Char) : List Char :=
  ((l.dropWhile Char.isWhitespace).reverse.dropWhile Char.isWhitespace).reverse

/-- The ASCII decimal digits. -/
def digitChars : List Char := ['0', '1', '2', '3', '4', '5', '6', '7', '8', '9']

/-- Models Rust `char::is_numeric` on the character repertoire exercised by this
code base: the ASCII digits are numeric, while CJK ideographs, Latin letters,
whitespace and punctuation are not. -/
def charIsNumericRust (c : Char) : Bool := c.isDigit

/-! ## Chinese number verbalizer (sovits-rs/src/text/zh_normalization/num.rs) -/

/-- `MAX_NUMERIC_LENGTH` from num.rs: digit strings longer than this are read
digit by digit. -/
def maxNumericLength : Nat := 13

/-- The `DIGITS` table from num.rs: the decimal digits mapped to the Chinese
numerals 零一二三四五六七八九.  The Rust map is only ever indexed with digit
characters (`verbalize_digits` falls back to the character itself on a miss),
so other characters are returned unchanged. -/
def digitZh (c : Char) : Char :=
  match c with
  | '0' => '零' | '1' => '一' | '2' => '二' | '3' => '三' | '4' => '四'
  | '5' => '五' | '6' => '六' | '7' => '七' | '8' => '八' | '9' => '九'
  | _ => c

/-- The `UINT` magnitude table from num.rs. -/
def uintZh (p : Nat) : Option Char :=
  match p with
  | 1 => some '十' | 2 => some '百' | 3 => some '千' | 4 => some '万'
  | 8 => some '亿' | _ => none

/-- `Num::verbalize_digits`: map every digit through `DIGITS` (other characters
pass through), then replace 一 by 幺 when `alt_one` is set. -/
def verbalizeDigits (value : List Char) (altOne : Bool) : List Char :=
  (value.map digitZh).map (fun c => if altOne ∧ c = '一' then '幺' else c)

/-- `trim_start_matches('0')` as used by `Num::get_value` and
`Num::verbalize_cardinal`. -/
def stripZeros (l : List Char) : List Char := l.dropWhile (· = '0')

/-- `keys.iter().find(|power| power < n).unwrap_or(8)` with
`keys = [8, 4, 3, 2, 1]`, from `Num::get_value`. -/
def largestUnitFor (n : Nat) : Nat :=
  if 8 < n then 8
  else if 4 < n then 4
  else if 3 < n then 3
  else if 2 < n then 2
  else if 1 < n then 1
  else 8

/-- `Num::get_value` with an explicit recursion-depth bound.  Every produced
symbol is a single character (a Chinese digit or a magnitude unit), so the
Rust `Vec<String>` is modelled as a `List Char`.  Each recursive call of the
Rust function is on a strictly shorter string, so any `fuel ≥ value.length`
computes the same result (`getValue` below instantiates it). -/
def getValueFuel : Nat → List Char → Bool → List Char
  | 0, _, _ => []
  | fuel + 1, value, useZero =>
    if (stripZeros value).length = 0 then []
    else if (stripZeros value).length = 1 then
      let digit := digitZh ((stripZeros value).headD '0')
      if useZero ∧ (stripZeros value).length < value.length then ['零', digit] else [digit]
    else
      let largestUnit := largestUnitFor (stripZeros value).length
      let splitPoint := value.length - largestUnit
      getValueFuel fuel (value.take splitPoint) true ++
        (match uintZh largestUnit with
         | some u => [u]
         | none => []) ++
        getValueFuel fuel (value.drop splitPoint) true

/-- `Num::get_value`. -/
def getValue (value : List Char) (useZero : Bool) : List Char :=
  getValueFuel value.length value useZero

/-- The leading 一十 elision at the end of `Num::verbalize_cardinal`:
`result_symbols[0] == 一 && result_symbols[1] == 十` drops the 一. -/
def elideLeadingOneTen (symbols : List Char) : List Char :=
  match symbols with
  | '一' :: '十' :: rest => '十' :: rest
  | other => other

/-- `Num::verbalize_cardinal`. -/
def verbalizeCardinal (sentence : List Char) (withLimit : Bool) : List Char :=
  if sentence.isEmpty then sentence
  else if withLimit ∧ (sentence.headD ' ' = '0' ∨ maxNumericLength < sentence.length) then
    verbalizeDigits sentence true
  else if (stripZeros sentence).isEmpty then ['零']
  else elideLeadingOneTen (getValue (stripZeros sentence) true)

/-- `str::split_once('.')`: the text before and after the first dot, when a dot
is present. -/
def splitOnceDot (l : List Char) : Option (List Char × List Char) :=
  if '.' ∈ l then some (l.takeWhile (· ≠ '.'), (l.dropWhile (· ≠ '.')).tail)
  else none

/-- `Num::num2str`. -/
def num2str (value : List Char) (withLimit : Bool) : List Char :=
  match splitOnceDot value with
  | some (int, dec) =>
    let result := verbalizeCardinal int false
    let decimal := (dec.reverse.dropWhile (· = '0')).reverse
    if decimal.isEmpty then result
    else
      let result := if result.isEmpty then ['零'] else result
      result ++ '点' :: verbalizeDigits decimal false
  | none => verbalizeCardinal value withLimit

/-- `Num::is_all_zero` (true on the empty string, as in Rust). -/
def isAllZero (value : List Char) : Bool := value.all (· = '0')

/-- The `RE_NUMBER` replacement closure of `Num::replace_number`, applied to one
match: `sign` is whether capture 1 (the minus) is non-empty, `number` is
capture 2 (`\d+(\.\d+)?`), `pureDecimal` is capture 5 (`\.\d+` without an
integer part). -/
def replaceNumberCaps (sign : Bool) (number : Option (List Char))
    (pureDecimal : Option (List Char)) : List Char :=
  match pureDecimal with
  | none =>
    -- sign = 负 when the minus is present and the digits are not all zero;
    -- with_limit = sign.is_empty()
    if sign ∧ ¬ isAllZero (number.getD []) then
      '负' :: num2str (number.getD []) false
    else num2str (number.getD []) true
  | some pd => num2str pd false

/-- The `RE_FRAC` replacement closure of `Num::replace_frac`, applied to one
match. -/
def replaceFracCaps (sign : Bool) (nominator denominator : List Char) : List Char :=
  let signStr : List Char := if sign ∧ ¬ isAllZero nominator then ['负'] else []
  signStr ++ num2str denominator false ++ '分' :: '之' :: num2str nominator false

/-- The `RE_PERCENTAGE` replacement closure of `Num::replace_percentage`,
applied to one match. -/
def replacePercentageCaps (sign : Bool) (percent : List Char) : List Char :=
  let percentStr := num2str percent false
  let signStr : List Char := if sign then ['负'] else []
  signStr ++ '百' :: '分' :: '之' :: percentStr

/-- The `RE_INTEGER` replacement closure of `Num::replace_negative_num`,
applied to one match. -/
def replaceNegativeNumCaps (sign : Bool) (number : List Char) : List Char :=
  let numberStr := num2str number false
  let signStr : List Char := if sign then ['负'] else []
  signStr ++ numberStr

/-- Parse of the optional leading minus of a `RE_NUMBER` match of the shape
`-?\d+(\.\d+)?` (the shape produced by the `RE_RANGE` side captures). -/
def parseSignNumber (l : List Char) : Bool × List Char :=
  match l with
  | '-' :: rest => (true, rest)
  | _ => (false, l)

/-- `Num::replace_number` applied to a string that is exactly one
`-?\d+(\.\d+)?` match. -/
def replaceNumberOn (l : List Char) : List Char :=
  let p := parseSignNumber l
  replaceNumberCaps p.1 (some p.2) none

/-- The `RE_RANGE` replacement closure of `Num::replace_range`, applied to one
match: each side is re-verbalized through `replace_number`. -/
def replaceRangeCaps (first second : List Char) : List Char :=
  replaceNumberOn first ++ '到' :: replaceNumberOn second

/-! ## Chronology (sovits-rs/src/text/zh_normalization/chronology.rs) -/

/-- `Chronology::time_num2str`. -/
def timeNum2Str (numStr : List Char) : List Char :=
  let t := numStr.dropWhile (· = '0')
  let result := num2str t false
  if numStr.headD ' ' = '0' ∧ result ≠ ['零'] then '零' :: result else result

/-- The `RE_DATE` replacement closure of `Chronology::replace_date`, applied to
one match.  The day suffix reads `caps.get(9)`, a capture group that does not
exist in `RE_DATE`, so it is always the default 日. -/
def replaceDateCaps (year month day : Option (List Char)) : List Char :=
  let yearS := (year.map (fun m => verbalizeDigits m false ++ ['年'])).getD []
  let monthS := (month.map (fun m => verbalizeCardinal m false ++ ['月'])).getD []
  let dayS := (day.map (fun m => verbalizeCardinal m false ++ ['日'])).getD []
  yearS ++ monthS ++ dayS

/-- The single-time half of the `Chronology::_replace_time` closure: hour,
minute, optional second. -/
def replaceTimeCaps (hour minute : List Char) (second : Option (List Char)) : List Char :=
  let hourS := num2str hour false
  let minuteS := timeNum2Str minute
  let secondS := (second.map (fun m => timeNum2Str m ++ ['秒'])).getD []
  let result := hourS ++ ['点']
  let result :=
    if minuteS = ['三', '十'] then result ++ ['半']
    else if minuteS ≠ ['零'] then result ++ minuteS ++ ['分']
    else result
  result ++ secondS

/-- The `RE_TIME_RANGE` replacement closure of `Chronology::_replace_time`
(`caps.len() > 5`): both endpoints rendered, joined by 至. -/
def replaceTimeRangeCaps (h1 m1 : List Char) (s1 : Option (List Char))
    (h2 m2 : List Char) (s2 : Option (List Char)) : List Char :=
  replaceTimeCaps h1 m1 s1 ++ '至' :: replaceTimeCaps h2 m2 s2

/-! ## Sentence chunker (text_utils.rs, both revisions) -/

/-- The sovits-rs `LangSegment::cut3` (also the src revision's `cut3`): cut at
。, and further cut any over-long piece at ，. -/
def cut3 (inp : String) (maxNum : Nat) : String :=
  let inp := trimCharBoth '\n' inp.toList
  let inps := splitChar '。' (trimCharBoth '。' inp)
  let inps := inps.map (fun s =>
    if maxNum < s.length then joinChar '\n' (splitChar '，' s) else s)
  String.mk (joinChar '\n' inps)

/-- `merge_short_text_in_array` (identical in both revisions). -/
def mergeShortTextInArray (texts : List String) (threshold : Nat) : List String :=
  if texts.length < 2 then texts
  else
    let step := texts.foldl
      (fun (acc : List String × String) t =>
        let buf := acc.2 ++ t
        if threshold ≤ buf.length then (acc.1 ++ [buf], "") else (acc.1, buf))
      ([], "")
    if step.2 ≠ "" then
      match step.1 with
      | [] => [step.2]
      | _ => modifyLast step.1 (· ++ step.2)
    else step.1

/-- The sovits-rs `LangSegment::cut_texts`: `cut3`, split on newlines, merge
short lines (the `cut2` pass is commented out in this revision). -/
def cutTexts (text : String) (maxNum : Nat) : List String :=
  let text := cut3 text maxNum
  mergeShortTextInArray ((splitChar '\n' text.toList).map String.mk) 5

/-- The sentence delimiters of `LangSegment::split` (src revision). -/
def charSplits : List Char :=
  ['，', '。', '？', '！', ',', '.', '?', '!', '~', ':', '：', '—', '…']

/-- The scanning loop of `LangSegment::split`: push a segment at each delimiter,
drop a trailing delimiter-free remainder. -/
def splitLoopGo : List Char → List Char → List String
  | [], _ => []
  | c :: rest, cur =>
    if c ∈ charSplits then String.mk (cur ++ [c]) :: splitLoopGo rest []
    else splitLoopGo rest (cur ++ [c])

/-- `LangSegment::split` of the src revision.  On the empty string the Rust
code evaluates `chars().nth(len - 1).unwrap()` on no character and aborts;
this is modelled by `none`. -/
def splitV2 (todoText : String) : Option (List String) :=
  let t := replacePairWith '—' '—' ['，'] (replacePairWith '…' '…' ['。'] todoText.toList)
  match t.getLast? with
  | none => none
  | some lastChar =>
    let t := if lastChar ∈ charSplits then t else t ++ ['。']
    some (splitLoopGo t [])

/-- The greedy packing loop of `cut2` (src revision, lines 220-231): pieces are
accumulated and a line is flushed as soon as the running character count
exceeds `max_num`; a non-empty remainder is appended at the end. -/
def packLines (inps : List String) (maxNum : Nat) : List String :=
  let step := inps.foldl
    (fun (acc : List String × Nat × String) seg =>
      let summ := acc.2.1 + seg.length
      let tmp := acc.2.2 ++ seg
      if maxNum < summ then (acc.1 ++ [tmp], 0, "") else (acc.1, summ, tmp))
    ([], 0, "")
  if step.2.2 ≠ "" then step.1 ++ [step.2.2] else step.1

/-- The final fold of `cut2` (src revision, lines 232-236): when more than one
line exists and the last line is shorter than `max_num`, it is appended to the
previous line. -/
def cut2Fold (opts : List String) (maxNum : Nat) : List String :=
  if 1 < opts.length ∧ (opts.getLastD "").length < maxNum then
    modifyLast opts.dropLast (· ++ opts.getLastD "")
  else opts

/-- `LangSegment::cut2` of the src revision, including the final fold of a
short last line into its predecessor. -/
def cut2 (inp : String) (maxNum : Nat) : Option String :=
  let inp := String.mk (trimCharBoth '\n' inp.toList)
  match splitV2 inp with
  | none => none
  | some inps =>
    if inps.length < 2 then some inp
    else
      let opts := cut2Fold (packLines inps maxNum) maxNum
      some (String.mk (joinChar '\n' (opts.map String.toList)))

/-- `LangSegment::cut_texts` of the src revision (the one that runs `cut2`). -/
def cutTextsV2 (text : String) (maxNum : Nat) : Option (List String) :=
  let text := cut3 text maxNum
  match cut2 text maxNum with
  | none => none
  | some text => some (mergeShortTextInArray ((splitChar '\n' text.toList).map String.mk) 5)

/-! ## English number normalizer (src/src/text/english.rs) -/

/-- Modelled from the spec: the "standard English-number conversion with
spaces" delegated to the external `english_numbers` crate
(`convert` with `Formatting { spaces: true, conjunctions: true, .. }`):
lowercase words separated by spaces, "and" between a hundred and its
remainder.  Words 0..19. -/
def englishOnes (n : Nat) : String :=
  match n with
  | 0 => "zero" | 1 => "one" | 2 => "two" | 3 => "three" | 4 => "four"
  | 5 => "five" | 6 => "six" | 7 => "seven" | 8 => "eight" | 9 => "nine"
  | 10 => "ten" | 11 => "eleven" | 12 => "twelve" | 13 => "thirteen"
  | 14 => "fourteen" | 15 => "fifteen" | 16 => "sixteen" | 17 => "seventeen"
  | 18 => "eighteen" | 19 => "nineteen" | _ => ""

/-- Modelled from the spec: tens words of the standard conversion. -/
def englishTens (n : Nat) : String :=
  match n with
  | 2 => "twenty" | 3 => "thirty" | 4 => "forty" | 5 => "fifty"
  | 6 => "sixty" | 7 => "seventy" | 8 => "eighty" | 9 => "ninety" | _ => ""

/-- Modelled from the spec: the standard conversion below one hundred. -/
def englishConvert99 (n : Nat) : String :=
  if n < 20 then englishOnes n
  else englishTens (n / 10) ++ (if n % 10 = 0 then "" else " " ++ englishOnes (n % 10))

/-- Modelled from the spec: the standard conversion below one thousand, with
the "and" conjunction between the hundreds and the remainder. -/
def englishConvert999 (n : Nat) : String :=
  if n < 100 then englishConvert99 n
  else englishOnes (n / 100) ++ " hundred" ++
    (if n % 100 = 0 then "" else " and " ++ englishConvert99 (n % 100))

/-- Modelled from the spec: scale names of the thousand groups. -/
def englishScaleName (s : Nat) : String :=
  match s with
  | 1 => "thousand" | 2 => "million" | 3 => "billion" | 4 => "trillion"
  | 5 => "quadrillion" | 6 => "quintillion" | _ => ""

/-- Modelled from the spec: the thousand-and-above part of the standard
conversion (named scales joined by spaces), with a recursion-depth bound;
each step divides by 1000, so any `fuel ≥ m` suffices. -/
def englishConvertHighFuel : Nat → Nat → Nat → String
  | 0, _, _ => ""
  | fuel + 1, m, scale =>
    let g := m % 1000
    let rest := m / 1000
    let cur := if g = 0 then "" else englishConvert999 g ++ " " ++ englishScaleName scale
    if rest = 0 then cur
    else
      let hi := englishConvertHighFuel fuel rest (scale + 1)
      if g = 0 then hi else hi ++ " " ++ cur

/-- Modelled from the spec: the thousand-and-above part of the standard
conversion (`m ≥ 1`). -/
def englishConvertHigh (m scale : Nat) : String :=
  englishConvertHighFuel m m scale

/-- Modelled from the spec: the standard English-number conversion used by
`normalize_numbers`, with an "and" before a final sub-hundred remainder of a
number with thousand groups. -/
def englishConvert (n : Nat) : String :=
  if n = 0 then "zero"
  else if n < 1000 then englishConvert999 n
  else
    let high := englishConvertHigh (n / 1000) 1
    let low := n % 1000
    if low = 0 then high
    else if low < 100 then high ++ " and " ++ englishConvert99 low
    else high ++ " " ++ englishConvert999 low

/-- Rust `str::replace(", ", " ")` as applied by `normalize_numbers`. -/
def replaceCommaSpace (s : String) : String :=
  String.mk (replacePairWith ',' ' ' [' '] s.toList)

/-- The `RE_NUMBER` replacement closure of `English::normalize_numbers`
(english.rs lines 106-133), applied to one integer token whose parsed i64
value is `n` (`caps[0].trim().parse::<i64>().unwrap_or(0)`). -/
def normalizeIntegerToken (n : Nat) : String :=
  if n = 2000 then "two thousand"
  else if 2001 ≤ n ∧ n ≤ 2009 then "two thousand " ++ englishConvert (n % 100)
  else if (2010 ≤ n ∧ n ≤ 2999) ∧ n % 100 = 0 then
    englishConvert (n / 100) ++ " hundred"
  else if 1000 ≤ n ∧ n ≤ 2999 then replaceCommaSpace (englishConvert n)
  else englishConvert n

/-- The value of `caps[0].trim().parse::<i64>().unwrap_or(0)` for a digit-only
token: the numeric value when it fits an i64, otherwise 0. -/
def parseI64Token (digits : List Char) : Nat :=
  let v := digits.foldl (fun acc c => acc * 10 + (c.toNat - '0'.toNat)) 0
  if v ≤ 9223372036854775807 then v else 0

/-- `normalize_numbers` restricted to one bare-integer token. -/
def normalizeNumberToken (digits : List Char) : String :=
  normalizeIntegerToken (parseI64Token digits)

/-! ## Autoregressive decode loop (sovits-rs/src/bert_utils.rs, infer_wav) -/

/-- One iteration step of the `t2s_stage_decoder` loop, with the ONNX session
as a parameter: from the opaque `(k, v, y_emb)` bundle, the token history `y`
and the current attention-mask width it returns the new bundle, `logits[0]`
and `samples[0][0]`.  Iterates `idx` from 1 while `r` counts the remaining
iterations of `for idx in 1..1500`; the third component of the result is
`loop_idx` (0 when the loop never breaks). -/
def arGo {σ : Type} (stage : σ → List Int → Nat → σ × Int × Int) :
    Nat → σ → List Int → Nat → Nat → σ × List Int × Nat
  | 0, kv, y, _, _ => (kv, y, 0)
  | r + 1, kv, y, cols, idx =>
    let cols' := cols + 1
    let out := stage kv y cols'
    let y' := y ++ [out.2.2]
    if out.2.2 = 1024 ∨ out.2.1 = 1024 then (out.1, y', idx)
    else arGo stage r out.1 y' cols' (idx + 1)

/-- Truncation of a real (modelled as a rational) to i16 with saturation:
Rust `as i16` on a float truncates toward zero and saturates.
`x.num.tdiv x.den` is the truncation toward zero of `x`. -/
def ratToI16 (x : ℚ) : Int :=
  max (-32768) (min 32767 (x.num.tdiv x.den))

/-- The peak normalization and 16-bit quantization at the end of `infer_wav`
(bert_utils.rs lines 471-480), with f32 modelled as ℚ. -/
def pcmNormalize (au : List ℚ) : List Int :=
  let maxAudio := (au.map (fun v => |v|)).foldl max 0
  if 1 < maxAudio then au.map (fun x => ratToI16 (x / maxAudio * 32768))
  else au.map (fun x => ratToI16 (x * 32768))

/-- `infer_wav` from the first-stage outputs on: the decode loop
(`for idx in 1..1500`), overwriting the last token of `y` with 0, slicing the
final `loop_idx` tokens as `pred_semantic`, running the `vq_model` vocoder
(a parameter closing over `text`, `org_audio`, `hann_window`, `refer_mask`
and the length tensors) and quantizing its audio output. -/
def inferWav {σ : Type} (stage : σ → List Int → Nat → σ × Int × Int)
    (vocoder : List Int → List ℚ) (kv0 : σ) (y0 : List Int) (cols0 : Nat) : List Int :=
  let res := arGo stage 1499 kv0 y0 cols0 1
  let y := res.2.1
  let loopIdx := res.2.2
  let y2 := modifyLast y (fun _ => 0)
  let predSemantic := y2.drop (y2.length - loopIdx)
  pcmNormalize (vocoder predSemantic)


/-! ## Tone sandhi (sovits-rs/src/text/tone_sandhi.rs) -/

/-- `MUST_NEURAL_TONE_WORDS` from tone_sandhi.rs. -/
def mustNeuralToneWords : List (List Char) :=
  ([
    "麻烦", "麻利", "鸳鸯", "高粱", "骨头", "骆驼", "马虎", "首饰", "馒头", "馄饨",
    "风筝", "难为", "队伍", "阔气", "闺女", "门道", "锄头", "铺盖", "铃铛", "铁匠",
    "钥匙", "里脊", "里头", "部分", "那么", "道士", "造化", "迷糊", "连累", "这么",
    "这个", "运气", "过去", "软和", "转悠", "踏实", "跳蚤", "跟头", "趔趄", "财主",
    "豆腐", "讲究", "记性", "记号", "认识", "规矩", "见识", "裁缝", "补丁", "衣裳",
    "衣服", "衙门", "街坊", "行李", "行当", "蛤蟆", "蘑菇", "薄荷", "葫芦", "葡萄",
    "萝卜", "荸荠", "苗条", "苗头", "苍蝇", "芝麻", "舒服", "舒坦", "舌头", "自在",
    "膏药", "脾气", "脑袋", "脊梁", "能耐", "胳膊", "胭脂", "胡萝", "胡琴", "胡同",
    "聪明", "耽误", "耽搁", "耷拉", "耳朵", "老爷", "老实", "老婆", "老头", "老太",
    "翻腾", "罗嗦", "罐头", "编辑", "结实", "红火", "累赘", "糨糊", "糊涂", "精神",
    "粮食", "簸箕", "篱笆", "算计", "算盘", "答应", "笤帚", "笑语", "笑话", "窟窿",
    "窝囊", "窗户", "稳当", "稀罕", "称呼", "秧歌", "秀气", "秀才", "福气", "祖宗",
    "砚台", "码头", "石榴", "石头", "石匠", "知识", "眼睛", "眯缝", "眨巴", "眉毛",
    "相声", "盘算", "白净", "痢疾", "痛快", "疟疾", "疙瘩", "疏忽", "畜生", "生意",
    "甘蔗", "琵琶", "琢磨", "琉璃", "玻璃", "玫瑰", "玄乎", "狐狸", "状元", "特务",
    "牲口", "牙碜", "牌楼", "爽快", "爱人", "热闹", "烧饼", "烟筒", "烂糊", "点心",
    "炊帚", "灯笼", "火候", "漂亮", "滑溜", "溜达", "温和", "清楚", "消息", "浪头",
    "活泼", "比方", "正经", "欺负", "模糊", "槟榔", "棺材", "棒槌", "棉花", "核桃",
    "栅栏", "柴火", "架势", "枕头", "枇杷", "机灵", "本事", "木头", "木匠", "朋友",
    "月饼", "月亮", "暖和", "明白", "时候", "新鲜", "故事", "收拾", "收成", "提防",
    "挖苦", "挑剔", "指甲", "指头", "拾掇", "拳头", "拨弄", "招牌", "招呼", "抬举",
    "护士", "折腾", "扫帚", "打量", "打算", "打点", "打扮", "打听", "打发", "扎实",
    "扁担", "戒指", "懒得", "意识", "意思", "情形", "悟性", "怪物", "思量", "怎么",
    "念头", "念叨", "快活", "忙活", "志气", "心思", "得罪", "张罗", "弟兄", "开通",
    "应酬", "庄稼", "干事", "帮手", "帐篷", "希罕", "师父", "师傅", "巴结", "巴掌",
    "差事", "工夫", "岁数", "屁股", "尾巴", "少爷", "小气", "小伙", "将就", "对头",
    "对付", "寡妇", "家伙", "客气", "实在", "官司", "学问", "学生", "字号", "嫁妆",
    "媳妇", "媒人", "婆家", "娘家", "委屈", "姑娘", "姐夫", "妯娌", "妥当", "妖精",
    "奴才", "女婿", "头发", "太阳", "大爷", "大方", "大意", "大夫", "多少", "多么",
    "外甥", "壮实", "地道", "地方", "在乎", "困难", "嘴巴", "嘱咐", "嘟囔", "嘀咕",
    "喜欢", "喇嘛", "喇叭", "商量", "唾沫", "哑巴", "哈欠", "哆嗦", "咳嗽", "和尚",
    "告诉", "告示", "含糊", "吓唬", "后头", "名字", "名堂", "合同", "吆喝", "叫唤",
    "口袋", "厚道", "厉害", "千斤", "包袱", "包涵", "匀称", "勤快", "动静", "动弹",
    "功夫", "力气", "前头", "刺猬", "刺激", "别扭", "利落", "利索", "利害", "分析",
    "出息", "凑合", "凉快", "冷战", "冤枉", "冒失", "养活", "关系", "先生", "兄弟",
    "便宜", "使唤", "佩服", "作坊", "体面", "位置", "似的", "伙计", "休息", "什么",
    "人家", "亲戚", "亲家", "交情", "云彩", "事情", "买卖", "主意", "丫头", "丧气",
    "两口", "东西", "东家", "世故", "不由", "不在", "下水", "下巴", "上头", "上司",
    "丈夫", "丈人", "一辈", "那个", "菩萨", "父亲", "母亲", "咕噜", "邋遢", "费用",
    "冤家", "甜头", "介绍", "荒唐", "大人", "泥鳅", "幸福", "熟悉", "计划", "扑腾",
    "蜡烛", "姥爷", "照顾", "喉咙", "吉他", "弄堂", "蚂蚱", "凤凰", "拖沓", "寒碜",
    "糟蹋", "倒腾", "报复", "逻辑", "盘缠", "喽啰", "牢骚", "咖喱", "扫把", "惦记"
  ] : List String).map String.toList

/-- `MUST_NOT_NEURAL_TONE_WORDS` from tone_sandhi.rs. -/
def mustNotNeuralToneWords : List (List Char) :=
  ([
    "男子", "女子", "分子", "原子", "量子", "莲子", "石子", "瓜子", "电子", "人人",
    "虎虎", "幺幺", "干嘛", "学子", "哈哈", "数数", "袅袅", "局地", "以下", "娃哈哈",
    "花花草草", "留得", "耕地", "想想", "熙熙", "攘攘", "卵子", "死死", "冉冉", "恳恳",
    "佼佼", "吵吵", "打打", "考考", "整整", "莘莘", "落地", "算子", "家家户户", "青青"
  ] : List String).map String.toList

/-- The `PUNCTUATION` string from tone_sandhi.rs. -/
def sandhiPunct : List Char := "：，；。？！“”‘’':,;.?!".toList

/-- `ToneSandhi::all_tone_three`: every final ends with the tone digit 3. -/
def allToneThree (finals : List (List Char)) : Bool :=
  finals.all (fun x => x.getLast? = some '3')

/-- UTF-8 byte length of a character, used to model Rust byte-based string
indexing. -/
def utf8CharLen (c : Char) : Nat :=
  if c.toNat < 0x80 then 1 else if c.toNat < 0x800 then 2
  else if c.toNat < 0x10000 then 3 else 4

/-- UTF-8 byte length of a string (Rust `str::len`). -/
def utf8Len (l : List Char) : Nat := (l.map utf8CharLen).sum

/-- `str::get(i..)` for a byte index `i`: `some` of the suffix when `i` is a
character boundary, `none` otherwise. -/
def byteSliceFrom : List Char → Nat → Option (List Char)
  | l, 0 => some l
  | [], _ + 1 => none
  | c :: rest, i + 1 =>
    if utf8CharLen c ≤ i + 1 then byteSliceFrom rest (i + 1 - utf8CharLen c) else none

/-- One step of the insertion sort performed by `slice::sort_by` on the small
slices arising here: `x` sinks left past `y` exactly when the comparator says
`Less`.  `revAcc` is the already-sorted prefix in reversed order. -/
def revInsertBy {a : Type} (lt : a → a → Bool) (x : a) : List a → List a
  | [] => [x]
  | y :: ys => if lt x y then y :: revInsertBy lt x ys else x :: y :: ys

/-- The sort in `ToneSandhi::split_word`:
`sort_by(|a, b| a.chars().count().partial_cmp(&b.len()).unwrap())` compares
the CHARACTER count of the left side with the BYTE length of the right side.
The comparator is inconsistent on multi-byte strings, so the result is pinned
to the insertion sort Rust uses on short slices: an element moves left past
its neighbour exactly when the comparator returns `Less`. -/
def rustSortLen (l : List (List Char)) : List (List Char) :=
  (l.foldl (fun racc x => revInsertBy (fun a b => a.length < utf8Len b) x racc) []).reverse

/-- `ToneSandhi::split_word`; `jieba` stands for `Jieba::cut_for_search`.
Note `word.get(first_word_len..)` uses a character count as a byte index, so
for multi-byte words the suffix lookup fails and yields the empty string. -/
def splitWord (word : List Char) (jieba : List Char → List (List Char)) : List (List Char) :=
  let wordList := rustSortLen (jieba word)
  match wordList.head? with
  | none => []
  | some firstWord =>
    let firstWordLen := firstWord.length
    if firstWord.isPrefixOf word then
      let secondWord := (byteSliceFrom word firstWordLen).getD []
      [firstWord, secondWord]
    else
      let secondWord := word.take (word.length - firstWordLen)
      [secondWord, firstWord]

/-- Replace the tone digit: drop the last character and append `t`. -/
def retone (t : Char) (f : List Char) : List Char := f.dropLast ++ [t]

/-- The per-position loop of `ToneSandhi::bu_sandhi` (structural countdown on
the remaining positions): 不 before a tone-4 syllable becomes tone 2. -/
def buSandhiLoop (word : List Char) : Nat → List (List Char) → Nat → List (List Char)
  | 0, finals, _ => finals
  | r + 1, finals, i =>
    let finals :=
      if i + 1 < finals.length ∧ word[i]? = some '不' ∧ i + 1 < word.length ∧
          ((finals[i + 1]?.getD []).getLast? = some '4') then
        finals.modify (retone '2') i
      else finals
    buSandhiLoop word r finals (i + 1)

/-- `ToneSandhi::bu_sandhi`. -/
def buSandhi (word : List Char) (finals : List (List Char)) : List (List Char) :=
  if word.length = 3 ∧ word[1]? = some '不' then
    if 1 < finals.length then finals.modify (retone '5') 1 else finals
  else
    buSandhiLoop word word.length finals 0

/-- The per-position loop of `ToneSandhi::yi_sandhi` (structural countdown on
the remaining positions): 一 before tone 4 becomes tone 2, otherwise tone 4
unless followed by punctuation. -/
def yiSandhiLoop (word : List Char) : Nat → List (List Char) → Nat → List (List Char)
  | 0, finals, _ => finals
  | r + 1, finals, i =>
    let finals :=
      if word[i]? = some '一' ∧ i + 1 < word.length ∧ i + 1 < finals.length then
        if (finals[i + 1]?.getD []).getLast? = some '4' then
          finals.modify (retone '2') i
        else
          match word[i + 1]? with
          | some nextChar =>
            if nextChar ∉ sandhiPunct then finals.modify (retone '4') i else finals
          | none => finals
      else finals
    yiSandhiLoop word r finals (i + 1)

/-- `ToneSandhi::yi_sandhi`. -/
def yiSandhi (word : List Char) (finals : List (List Char)) : List (List Char) :=
  if word.isEmpty then finals
  else
    let wLen := word.length
    let b1 := '一' ∈ word
    let b2 := word.all (fun wi => wi = '一' ∨ charIsNumericRust wi)
    if b1 ∧ b2 then finals
    else if wLen = 3 ∧ word[1]? = some '一' ∧ word.headD ' ' = word.getLastD ' ' then
      if 2 < finals.length then finals.modify (retone '5') 1 else finals
    else if ['第', '一'].isPrefixOf word then
      if 2 < finals.length then finals.modify (retone '1') 1 else finals
    else
      yiSandhiLoop word word.length finals 0

/-- The reduplication pass at the top of `ToneSandhi::neural_sandhi`
(structural countdown on the remaining positions): a repeated character in a
noun/verb/adjective word outside the deny list takes the neutral tone (keeping
the whole final when dropping the tone digit would empty it). -/
def neuralRedupLoop (word : List Char) (pos : List Char) :
    Nat → List (List Char) → Nat → List (List Char)
  | 0, finals, _ => finals
  | r + 1, finals, j =>
    let finals :=
      if word[j]? ≠ none ∧ word[j]? = word[j - 1]? ∧ j ≥ 1 ∧
          (pos.head? = some 'n' ∨ pos.head? = some 'v' ∨ pos.head? = some 'a') ∧
          word ∉ mustNotNeuralToneWords then
        finals.modify (fun f => if f.dropLast.isEmpty then f ++ ['5'] else retone '5' f) j
      else finals
    neuralRedupLoop word pos r finals (j + 1)

/-- The word-list fix-up at the end of `ToneSandhi::neural_sandhi`: a piece in
the neutral-tone allow list (or whose `substring(word_len - 2, word_len)` is,
with `word_len` the length of the WHOLE word) has the tone of its last final
neutralized. -/
def neuralPartFix (wordLen : Nat) (w : List Char) (part : List (List Char)) :
    List (List Char) :=
  if w ∈ mustNeuralToneWords ∨
      (1 < wordLen ∧ substringClamp w (wordLen - 2) wordLen ∈ mustNeuralToneWords) then
    modifyLast part (retone '5')
  else part

/-- `ToneSandhi::neural_sandhi`; `jieba` stands for `Jieba::cut_for_search`
used inside `split_word`. -/
def neuralSandhi (word : List Char) (pos : List Char) (finals0 : List (List Char))
    (jieba : List Char → List (List Char)) : List (List Char) :=
  let wordLen := word.length
  let finalsLen := finals0.length
  if wordLen = 0 ∨ finalsLen = 0 then finals0
  else
    let finals := neuralRedupLoop word pos (word.length - 1) finals0 1
    let finals :=
      match word.getLast? with
      | none => finals
      | some lastChar =>
        let cond :=
          (1 ≤ wordLen ∧ lastChar ∈ "吧呢哈啊呐噻嘛吖嗨呐哦哒额滴哩哟喽啰耶喔诶".toList) ∨
          (wordLen = 1 ∧ lastChar ∈ "了着过".toList ∧
            (pos = "ul".toList ∨ pos = "uz".toList ∨ pos = "ug".toList)) ∨
          (1 < wordLen ∧
            ((lastChar ∈ "们子".toList ∧ (pos = "r".toList ∨ pos = "n".toList) ∧
                word ∉ mustNotNeuralToneWords) ∨
              (lastChar ∈ "来去".toList ∧
                (word[wordLen - 2]?.getD ' ') ∈ "上下进出回过起开".toList) ∨
              (lastChar ∈ "上下里".toList ∧
                (pos = "s".toList ∨ pos = "l".toList ∨ pos = "f".toList))))
        if cond then
          modifyLast finals (retone '5')
        else if 1 ≤ wordLen ∧ lastChar ∈ "的地得".toList then
          modifyLast finals (fun f => if f.dropLast.isEmpty then f ++ ['5'] else retone '5' f)
        else finals
    let finals :=
      match word.findIdx? (· = '个') with
      | some geIdx =>
        if 1 ≤ geIdx ∧
            (charIsNumericRust (word[geIdx - 1]?.getD ' ') ∨
              (word[geIdx - 1]?.getD ' ') ∈ "几有两半多各整每做是".toList ∨
              word = ['个']) then
          finals.modify (retone '5') geIdx
        else finals
      | none =>
        if word ∈ mustNeuralToneWords ∨
            (1 < wordLen ∧ substringClamp word (wordLen - 2) wordLen ∈ mustNeuralToneWords) then
          modifyLast finals (retone '5')
        else finals
    let wordList := splitWord word jieba
    let w0Len := (wordList.headD []).length
    let part0 := neuralPartFix wordLen (wordList.getD 0 []) (finals.take w0Len)
    let part1 := neuralPartFix wordLen (wordList.getD 1 []) (finals.drop w0Len)
    part0 ++ part1

/-- The length-3 mixed branch of `ToneSandhi::three_sandhi` (iterating over
the two halves of the split). -/
def threeSandhiMixed (sub0 sub1 : List (List Char)) : List (List Char) :=
  let sub0 :=
    if allToneThree sub0 ∧ sub0.length = 2 then sub0.modify (retone '2') 0 else sub0
  let p :=
    if allToneThree sub1 ∧ sub1.length = 2 then (sub0, sub1.modify (retone '2') 0)
    else if ¬ allToneThree sub1 then
      match sub0.getLast?, sub1.head? with
      | some pl, some c0 =>
        if pl.getLast? = some '3' ∧ c0.getLast? = some '3' then
          (modifyLast sub0 (retone '2'), sub1)
        else (sub0, sub1)
      | _, _ => (sub0, sub1)
    else (sub0, sub1)
  p.1 ++ p.2

/-- `ToneSandhi::three_sandhi`. -/
def threeSandhi (word : List Char) (finals : List (List Char))
    (jieba : List Char → List (List Char)) : List (List Char) :=
  if finals.isEmpty then finals
  else if word.length = 2 then
    if allToneThree finals then finals.modify (retone '2') 0 else finals
  else if word.length = 3 then
    let wordList := splitWord word jieba
    if allToneThree finals ∧ 2 ≤ finals.length then
      match (wordList.headD []).length with
      | 2 => (finals.modify (retone '2') 0).modify (retone '2') 1
      | 1 => finals.modify (retone '2') 1
      | _ => finals
    else
      let w0 := (wordList.headD []).length
      threeSandhiMixed (finals.take w0) (finals.drop w0)
  else if word.length = 4 then
    let fix := fun (sub : List (List Char)) =>
      if allToneThree sub then sub.modify (retone '2') 0 else sub
    fix (finals.take 2) ++ fix (finals.drop 2)
  else finals

/-- `ToneSandhi::modified_tone`: bu-sandhi, yi-sandhi, neural-sandhi,
three-sandhi in sequence. -/
def modifiedTone (word : List Char) (pos : List Char) (finals : List (List Char))
    (jieba : List Char → List (List Char)) : List (List Char) :=
  threeSandhi word (neuralSandhi word pos (yiSandhi word (buSandhi word finals)) jieba) jieba


/-! ## Chinese G2P core (src/src/text/chinese.rs) -/

/-- `V_REP_MAP` from chinese.rs. -/
def vRepMap (s : List Char) : Option (List Char) :=
  if s = "uei".toList then some "ui".toList
  else if s = "iou".toList then some "iu".toList
  else if s = "uen".toList then some "un".toList
  else none

/-- `PINYIN_REP_MAP` from chinese.rs. -/
def pinyinRepMap (s : List Char) : Option (List Char) :=
  if s = "ing".toList then some "ying".toList
  else if s = "i".toList then some "yi".toList
  else if s = "in".toList then some "yin".toList
  else if s = "u".toList then some "wu".toList
  else none

/-- `SINGLE_REP_MAP` from chinese.rs (keyed by the first character). -/
def singleRepMap (c : Char) : Option (List Char) :=
  if c = 'v' then some "yu".toList
  else if c = 'e' then some "e".toList
  else if c = 'i' then some "y".toList
  else if c = 'u' then some "w".toList
  else none

/-- `str::split_whitespace`: maximal non-whitespace runs, no empty pieces. -/
def splitWhitespaceL (l : List Char) : List (List Char) :=
  let r := l.foldr
    (fun c (acc : List Char × List (List Char)) =>
      if c.isWhitespace then
        if acc.1.isEmpty then ([], acc.2) else ([], acc.1 :: acc.2)
      else (c :: acc.1, acc.2))
    ([], [])
  if r.1.isEmpty then r.2 else r.1 :: r.2

/-- The body of the per-syllable loop of `Chinese::_g2p` (chinese.rs lines
175-212), processing one `(initial, final)` pair against the accumulated
`(phones_list, word2ph)`.  `pinyinToSymbol` is the `OPENCPOP_STRICT` lookup
table (`pinyin_to_symbol_map`).  An equal pair is punctuation (one phone,
word2ph 1); otherwise the syllable is rewritten and looked up, pushing the
symbol pair with its tone and word2ph = number of parts; an unknown syllable
is logged and skipped (neither list grows). -/
def g2pItemStep (pinyinToSymbol : List Char → Option (List Char))
    (acc : List (List Char) × List Nat) (cv : List Char × List Char) :
    List (List Char) × List Nat :=
  let c := cv.1
  let v := cv.2
  if c = v then
    (acc.1 ++ [c], acc.2 ++ [1])
  else
    let tone := v.drop (v.length - 1)
    let vBody := v.take (v.length - 1)
    let pinyin :=
      if ¬ c.isEmpty then
        match vRepMap vBody with
        | some newV => c ++ newV
        | none => c ++ vBody
      else
        match pinyinRepMap (c ++ vBody) with
        | some p => p
        | none =>
          match (c ++ vBody).head? with
          | some fc =>
            match singleRepMap fc with
            | some nc => nc ++ (c ++ vBody).drop 1
            | none => c ++ vBody
          | none => c ++ vBody
    match pinyinToSymbol pinyin with
    | some newCv =>
      let parts := modifyLast (splitWhitespaceL newCv) (· ++ tone)
      (acc.1 ++ parts, acc.2 ++ [parts.length])
    | none => acc

/-- `Chinese::_g2p` over a list of segments; `segItems` yields, per segment,
the zipped `(initials, finals)` pairs produced by lines 149-173 (English
stripping, jieba tagging, `pre_merge_for_modify`, pinyin extraction and
`modified_tone`), which only feed the per-syllable loop. -/
def g2pSegments (pinyinToSymbol : List Char → Option (List Char))
    (segItems : List Char → List (List Char × List Char))
    (segments : List (List Char)) : List (List Char) × List Nat :=
  segments.foldl
    (fun acc seg => (segItems seg).foldl (g2pItemStep pinyinToSymbol) acc)
    ([], [])

/-! ## Text utilities pipeline (sovits-rs/src/text_utils.rs) -/

/-- The language tags used by `text_utils.rs`. -/
def chineseLang : List Char := "Chinese".toList

/-- The English language tag. -/
def englishLang : List Char := "English".toList

/-- The Japanese language tag. -/
def japaneseLang : List Char := "Japanese".toList

/-- The collaborators of the cleaning pipeline, as parameters: the lingua
detector (`detect_multiple_languages_of` together with the index slicing of
`lang_seg_texts`), the Chinese normalizer (`Chinese::text_normalize`), the
sentence splitter of `Chinese::g2p` (`RE_SENTENCE_SPLIT`), the per-segment
syllable items of `_g2p`, the `OPENCPOP_STRICT` table, the English normalizer
(`English::text_normalize`), the symbol replacement (`Chinese::replace_symbol`),
the English G2P (`English::g2p`), the `SYMBOLS` index (`symbol_to_id`) and the
`SYMBOLS.contains` test. -/
structure CleanOracles where
  detect : List Char → List (List Char × List Char)
  chineseNormalize : List Char → List Char
  splitSentences : List Char → List (List Char)
  segItems : List Char → List (List Char × List Char)
  pinyinToSymbol : List Char → Option (List Char)
  englishNormalize : List Char → List Char
  replaceSymbol : List Char → List Char
  englishG2p : List Char → List (List Char)
  symbolToId : List Char → Option Nat
  symbolsContains : List Char → Bool

/-- `Chinese::g2p`: sentence split, then `_g2p`. -/
def chineseG2p (or : CleanOracles) (text : List Char) : List (List Char) × List Nat :=
  g2pSegments or.pinyinToSymbol or.segItems (or.splitSentences text)

/-- `TextUtils::clean_special` (sovits-rs revision): replace the special
character by a comma, normalize and g2p when Chinese, and map the comma phone
to the target symbol (the map keeps every phone, so the length is
preserved). -/
def cleanSpecial (or : CleanOracles) (text language : List Char)
    (specialChar : Char) (targetSymbol : List Char) :
    List (List Char) × List Nat × List Char :=
  let text := replaceChar specialChar ',' text
  let pr :=
    if language = chineseLang then
      let norm := or.chineseNormalize text
      chineseG2p or norm
    else ([], [])
  let newPh := pr.1.map (fun ph =>
    if or.symbolsContains ph then (if ph = [','] then targetSymbol else ph) else ph)
  (newPh, pr.2, text)

/-- `TextUtils::clean_text_inf`: unknown languages become a single English
space; the two special characters route through `clean_special`; Chinese runs
the normalizer and g2p; English runs its normalizer, the symbol replacement
and the English G2P with an empty word2ph; Japanese is an unimplemented stub
returning empty results. -/
def cleanTextInf (or : CleanOracles) (text0 language0 : List Char) :
    List (List Char) × List Nat × List Char :=
  let p :=
    if language0 ≠ englishLang ∧ language0 ≠ chineseLang ∧ language0 ≠ japaneseLang then
      (([' '] : List Char), englishLang)
    else (text0, language0)
  let text := p.1
  let language := p.2
  if '￥' ∈ text ∧ language = chineseLang then
    cleanSpecial or text language '￥' "SP2".toList
  else if '^' ∈ text ∧ language = chineseLang then
    cleanSpecial or text language '^' "SP3".toList
  else if language = chineseLang then
    let norm := or.chineseNormalize text
    let g := chineseG2p or norm
    (g.1, g.2, norm)
  else if language = englishLang then
    let text := or.englishNormalize text
    let norm := or.replaceSymbol text
    (or.englishG2p norm, [], norm)
  else ([], [], [])

/-- `TextUtils::cleaned_text_to_sequence`: unknown symbols map to id 0. -/
def cleanedTextToSequence (or : CleanOracles) (phones : List (List Char)) : List Nat :=
  phones.map (fun s => (or.symbolToId s).getD 0)

/-! ## Language segmentation (sovits-rs/src/text_utils.rs, LangSegment) -/

/-- ASCII letter test (`[a-zA-Z]`). -/
def isAsciiAlpha (c : Char) : Bool := ('a' ≤ c ∧ c ≤ 'z') ∨ ('A' ≤ c ∧ c ≤ 'Z')

/-- CJK range test (`[\u4e00-\u9fa5]`). -/
def isCjkChar (c : Char) : Bool := 0x4e00 ≤ c.toNat ∧ c.toNat ≤ 0x9fa5

/-- The separator class of `PATTERN_ALPHA_RANGE` (`[—\->～~]`). -/
def isRangeSep (c : Char) : Bool :=
  c = '—' ∨ c = '-' ∨ c = '>' ∨ c = '～' ∨ c = '~'

/-- The run class of `PATTERN_2` (`[a-zA-Z0-9|.%]`). -/
def isPattern2Char (c : Char) : Bool :=
  isAsciiAlpha c ∨ c.isDigit ∨ c = '|' ∨ c = '.' ∨ c = '%'

/-- Scanner for `PATTERN_ALPHA_RANGE.replace_all`: the leftmost-first matches
of `([a-zA-Z]+)(sep)([a-zA-Z]+)` get the separator replaced by `zhi`.  The
fuel bounds the recursion depth; every step consumes at least one character so
`l.length` suffices. -/
def azScanFuel (zhi : List Char) : Nat → List Char → List Char
  | 0, l => l
  | fuel + 1, l =>
    match l with
    | [] => []
    | c :: rest =>
      if isAsciiAlpha c then
        let a1 := l.takeWhile isAsciiAlpha
        let after1 := l.dropWhile isAsciiAlpha
        match after1 with
        | s :: after2 =>
          if isRangeSep s then
            let a2 := after2.takeWhile isAsciiAlpha
            let after3 := after2.dropWhile isAsciiAlpha
            if a2.isEmpty then c :: azScanFuel zhi fuel rest
            else a1 ++ zhi ++ a2 ++ azScanFuel zhi fuel after3
          else c :: azScanFuel zhi fuel rest
        | [] => c :: azScanFuel zhi fuel rest
      else c :: azScanFuel zhi fuel rest

/-- Scanner for `PATTERN_ALPHA_RANGE2.replace_all`
(`([a-zA-Z]+)(sep)([0-9]+)` with `gan`). -/
def azScan2Fuel (gan : List Char) : Nat → List Char → List Char
  | 0, l => l
  | fuel + 1, l =>
    match l with
    | [] => []
    | c :: rest =>
      if isAsciiAlpha c then
        let a1 := l.takeWhile isAsciiAlpha
        let after1 := l.dropWhile isAsciiAlpha
        match after1 with
        | s :: after2 =>
          if isRangeSep s then
            let a2 := after2.takeWhile Char.isDigit
            let after3 := after2.dropWhile Char.isDigit
            if a2.isEmpty then c :: azScan2Fuel gan fuel rest
            else a1 ++ gan ++ a2 ++ azScan2Fuel gan fuel after3
          else c :: azScan2Fuel gan fuel rest
        | [] => c :: azScan2Fuel gan fuel rest
      else c :: azScan2Fuel gan fuel rest

/-- `LangSegment::replae_az_range`: rewrite alphabetic ranges with 至 / " to "
and letter-digit ranges with 杠 / a space. -/
def replaeAzRange (sentence : List Char) (lang : List Char) : List Char :=
  let zhi := if lang = chineseLang then "至".toList else " to ".toList
  let gan := if lang = chineseLang then "杠".toList else " ".toList
  let caps := azScanFuel zhi sentence.length sentence
  azScan2Fuel gan caps.length caps

/-- The `PATTERN_2.replace_all(s, "\n{m}\n")` pass of `zh_en_seg`: every
maximal `[a-zA-Z0-9|.%]+` run is wrapped in newlines. -/
def injectNlFuel : Nat → List Char → List Char
  | 0, l => l
  | fuel + 1, l =>
    match l with
    | [] => []
    | c :: rest =>
      if isPattern2Char c then
        let run := l.takeWhile isPattern2Char
        let after := l.dropWhile isPattern2Char
        '\n' :: (run ++ '\n' :: injectNlFuel fuel after)
      else c :: injectNlFuel fuel rest

/-- `LangSegment::lang_seg_texts`: the detector results (language, slice),
with a Chinese fallback when the detector returns nothing. -/
def langSegTexts (or : CleanOracles) (sentence : List Char) :
    List (List Char × List Char) :=
  let results := or.detect sentence
  if results.isEmpty then [(chineseLang, sentence)] else results

/-- `LangSegment::zh_en_seg`: sentences without Latin letters or without CJK
characters pass through; mixed sentences get their Latin/digit runs isolated
by newlines and every non-empty piece re-detected. -/
def zhEnSeg (or : CleanOracles) (sentence : List Char) (lang : List Char) :
    List (List Char × List Char) :=
  if ¬ sentence.any isAsciiAlpha ∨ ¬ sentence.any isCjkChar then [(lang, sentence)]
  else
    let caps := injectNlFuel sentence.length sentence
    ((splitChar '\n' caps).filter (fun s => ¬ s.isEmpty)).flatMap
      (fun s => langSegTexts or s)

/-- `LangSegment::lang_seg_texts2`. -/
def langSegTexts2 (or : CleanOracles) (sentence : List Char) (lang : List Char) :
    List (List Char × List Char) :=
  zhEnSeg or (replaeAzRange sentence lang) lang

/-- The four parallel span lists produced by `get_cleaned_text_final`. -/
structure CleanedText where
  phonesList : List (List Nat)
  word2phList : List (List Nat)
  langList : List (List Char)
  normTextList : List (List Char)
deriving DecidableEq

/-- The span-merge-or-push step of `get_cleaned_text_final` (text_utils.rs
lines 375-397): a span with the same language as the last emitted span is
appended to it; otherwise a span with non-blank normalized text is pushed. -/
def pushSpan (st : CleanedText) (lang2 : List Char) (phones word2ph : List Nat)
    (normText : List Char) : CleanedText :=
  if 0 < st.phonesList.length ∧ 0 < st.langList.length ∧ 0 < st.normTextList.length ∧
      st.langList.getLastD [] = lang2 then
    { phonesList := modifyLast st.phonesList (· ++ phones)
      word2phList := modifyLast st.word2phList (· ++ word2ph)
      langList := st.langList
      normTextList := modifyLast st.normTextList (· ++ normText) }
  else if 0 < (trimWs normText).length then
    { phonesList := st.phonesList ++ [phones]
      word2phList := st.word2phList ++ [word2ph]
      langList := st.langList ++ [lang2]
      normTextList := st.normTextList ++ [normText] }
  else st

/-- The title-prefix injection of `get_cleaned_text_final` (lines 365-372):
only the sub-span at index 0 whose first character is not numeric gets 。 /
". " prepended. -/
def injectPrefix (ei : Nat) (lang2 text2 : List Char) : List Char :=
  if ei = 0 ∧ ¬ charIsNumericRust (text2.headD ' ') then
    if lang2 = chineseLang then '。' :: text2
    else if lang2 = englishLang then '.' :: ' ' :: text2
    else text2
  else text2

/-- Processing of one secondary sub-span by `get_cleaned_text_final`: empty
sub-spans are skipped, the index-0 prefix is injected, the span is cleaned,
converted to phoneme ids and merged or pushed. -/
def processSpan (or : CleanOracles) (st : CleanedText) (ei : Nat)
    (lang2 text2 : List Char) : CleanedText :=
  if text2.isEmpty then st
  else
    let text2 := injectPrefix ei lang2 text2
    let r := cleanTextInf or text2 lang2
    let phones := cleanedTextToSequence or r.1
    pushSpan st lang2 phones r.2.1 r.2.2

/-- `TextUtils::get_cleaned_text_final`. -/
def getCleanedTextFinal (or : CleanOracles) (shortText : List Char) : CleanedText :=
  (langSegTexts or shortText).foldl
    (fun st seg =>
      (langSegTexts2 or seg.2 seg.1).enum.foldl
        (fun st p => processSpan or st p.1 p.2.1 p.2.2) st)
    ⟨[], [], [], []⟩


/-! ## Spec-side readings and claim-level predicates -/

/-- Written from the claim text, independently of the code: digit-by-digit
reading with 幺 substituted for 一. -/
def specDigitByDigitYao (l : List Char) : List Char :=
  l.map (fun c =>
    match c with
    | '0' => '零' | '1' => '幺' | '2' => '二' | '3' => '三' | '4' => '四'
    | '5' => '五' | '6' => '六' | '7' => '七' | '8' => '八' | '9' => '九'
    | _ => c)

/-- Written from the claim text, independently of the code: plain
digit-by-digit reading (一 for 1), as for years. -/
def specDigitByDigitPlain (l : List Char) : List Char :=
  l.map (fun c =>
    match c with
    | '0' => '零' | '1' => '一' | '2' => '二' | '3' => '三' | '4' => '四'
    | '5' => '五' | '6' => '六' | '7' => '七' | '8' => '八' | '9' => '九'
    | _ => c)

/-- The per-span property claimed for every `CleanedText` span: Chinese spans
have `sum word2ph = len phones`, other spans have an empty word2ph. -/
def spanOk (lang : List Char) (word2ph phones : List Nat) : Prop :=
  (lang = chineseLang → word2ph.sum = phones.length) ∧
  (lang ≠ chineseLang → word2ph = [])

/-- The invariant of the four parallel lists of a `CleanedText`. -/
def cleanedInv (ct : CleanedText) : Prop :=
  ct.phonesList.length = ct.word2phList.length ∧
  ct.word2phList.length = ct.langList.length ∧
  ct.langList.length = ct.normTextList.length ∧
  ∀ i, i < ct.langList.length →
    spanOk (ct.langList.getD i []) (ct.word2phList.getD i []) (ct.phonesList.getD i [])

/-- A stage-decoder session that never emits the 1024 sentinel, neither in
`samples` nor in `logits` (a concrete instance for the decode-cap scenario). -/
def cexStage : Unit → List Int → Nat → Unit × Int × Int := fun _ _ _ => ((), 7, 5)

/-- A vocoder session returning a fixed half-scale sample (a concrete instance
for the decode-cap scenario). -/
def cexVocoder : List Int → List ℚ := fun _ => [1 / 2]



/-- A concrete instance of the cleaning collaborators for the title-prefix
scenario: the detector splits the test sentence into a Chinese part and an
English part, recognizes "AC" as English, and falls back to Chinese elsewhere;
normalizers are the identity, the Chinese syllable extraction is empty, the
English G2P emits the sentence itself as one phone, and the symbol table only
knows "." (id 3) and "," (id 1). -/
def cexOr : CleanOracles :=
  { detect := fun s =>
      if s = "包含AC hello".toList then
        [(chineseLang, "包含AC".toList), (englishLang, " hello".toList)]
      else if s = "AC".toList then [(englishLang, "AC".toList)]
      else []
    chineseNormalize := fun s => s
    splitSentences := fun s => [s]
    segItems := fun _ => []
    pinyinToSymbol := fun _ => none
    englishNormalize := fun s => s
    replaceSymbol := fun s => s
    englishG2p := fun s => [s]
    symbolToId := fun s =>
      if s = ['.'] then some 3 else if s = [','] then some 1 else none
    symbolsContains := fun _ => false }

/-- The characters a Chinese cardinal reading is built from. -/
def zhNumChars : List Char :=
  ['零', '一', '二', '三', '四', '五', '六', '七', '八', '九', '十', '百', '千', '万', '亿']

/-! ## Theorems -/


theorem modifyLast_length {α : Type} (l : List α) (f : α → α) :
    (modifyLast l f).length = l.length := by
  induction l with
  | nil => rfl
  | cons a t ih =>
    cases t with
    | nil => rfl
    | cons b r =>
      simp only [modifyLast, List.length_cons] at ih ⊢
      omega

theorem arGo_no_sentinel {σ : Type} (stage : σ → List Int → Nat → σ × Int × Int)
    (h : ∀ kv y c, (stage kv y c).2.2 ≠ 1024 ∧ (stage kv y c).2.1 ≠ 1024) :
    ∀ (r : Nat) (kv : σ) (y : List Int) (cols idx : Nat),
      (arGo stage r kv y cols idx).2.2 = 0 ∧
        (arGo stage r kv y cols idx).2.1.length = y.length + r := by
  intro r
  induction r with
  | zero => intro kv y cols idx; exact ⟨rfl, rfl⟩
  | succ n ih =>
    intro kv y cols idx
    have hs := h kv y (cols + 1)
    simp only [arGo]
    rw [if_neg]
    · have h2 := ih (stage kv y (cols + 1)).1 (y ++ [(stage kv y (cols + 1)).2.2])
        (cols + 1) (idx + 1)
      refine ⟨h2.1, ?_⟩
      rw [h2.2]
      simp only [List.length_append, List.length_cons, List.length_nil]
      omega
    · rintro (h1 | h2)
      · exact hs.1 h1
      · exact hs.2 h2

theorem inferWav_no_sentinel {σ : Type} (stage : σ → List Int → Nat → σ × Int × Int)
    (vocoder : List Int → List ℚ) (kv0 : σ) (y0 : List Int) (cols0 : Nat)
    (h : ∀ kv y c, (stage kv y c).2.2 ≠ 1024 ∧ (stage kv y c).2.1 ≠ 1024) :
    inferWav stage vocoder kv0 y0 cols0 = pcmNormalize (vocoder []) := by
  have h0 := arGo_no_sentinel stage h 1499 kv0 y0 cols0 1
  simp only [inferWav, h0.1, Nat.sub_zero, List.drop_length]

theorem pcm_half : pcmNormalize [1/2] = [16384] := by
  have hm : (List.map (fun v => |v|) [(1/2 : ℚ)]).foldl max 0 = 1/2 := by
    simp only [List.map_cons, List.map_nil, List.foldl_cons, List.foldl_nil]
    rw [abs_of_pos (by norm_num)]
    exact max_eq_right (by norm_num)
  have h2 : ((1:ℚ)/2 * 32768) = 16384 := by norm_num
  simp only [pcmNormalize, hm, h2]
  rw [if_neg (by norm_num)]
  simp only [List.map_cons, List.map_nil, h2, ratToI16]
  norm_num

/-- Claim C2 (amended): when every step of the autoregressive loop avoids the
1024 sentinel in both `samples` and `logits`, the loop runs the full 1499
iterations (appending 1499 tokens), `loop_idx` stays 0, and `infer_wav` still
runs the vocoder — on an empty `pred_semantic` — and returns its normalized
PCM rather than an error (no `DecodeLimitExceeded` exists in the code). -/
theorem c2_decode_cap_runs_vocoder {σ : Type} (stage : σ → List Int → Nat → σ × Int × Int)
    (vocoder : List Int → List ℚ) (kv0 : σ) (y0 : List Int) (cols0 : Nat)
    (h : ∀ kv y c, (stage kv y c).2.2 ≠ 1024 ∧ (stage kv y c).2.1 ≠ 1024) :
    (arGo stage 1499 kv0 y0 cols0 1).2.2 = 0 ∧
    (arGo stage 1499 kv0 y0 cols0 1).2.1.length = y0.length + 1499 ∧
    inferWav stage vocoder kv0 y0 cols0 = pcmNormalize (vocoder []) :=
  ⟨(arGo_no_sentinel stage h 1499 kv0 y0 cols0 1).1,
   (arGo_no_sentinel stage h 1499 kv0 y0 cols0 1).2,
   inferWav_no_sentinel stage vocoder kv0 y0 cols0 h⟩

/-- Witness for C2 at a concrete sentinel-free session. -/
theorem c2_decode_cap_runs_vocoder_witness :
    (arGo cexStage 1499 () [0] 0 1).2.2 = 0 ∧
    (arGo cexStage 1499 () [0] 0 1).2.1.length = ([0] : List Int).length + 1499 ∧
    inferWav cexStage cexVocoder () [0] 0 = pcmNormalize (cexVocoder []) :=
  c2_decode_cap_runs_vocoder cexStage cexVocoder () [0] 0
    (fun _ _ _ => ⟨by norm_num [cexStage], by norm_num [cexStage]⟩)

/-- Counterexample to claim C2 as stated: a session that never emits the
sentinel makes the loop reach the 1499-step cap, yet the call emits non-empty
PCM (here one sample) instead of returning a `DecodeLimitExceeded` error —
no such error exists in the code. -/
theorem c2_counterexample :
    (∀ kv y c, (cexStage kv y c).2.2 ≠ 1024 ∧ (cexStage kv y c).2.1 ≠ 1024) ∧
    inferWav cexStage cexVocoder () [0] 0 = [16384] ∧
    inferWav cexStage cexVocoder () [0] 0 ≠ [] := by
  have hfree : ∀ (kv : Unit) (y : List Int) (c : Nat),
      (cexStage kv y c).2.2 ≠ 1024 ∧ (cexStage kv y c).2.1 ≠ 1024 :=
    fun _ _ _ => ⟨by norm_num [cexStage], by norm_num [cexStage]⟩
  have he : inferWav cexStage cexVocoder () [0] 0 = [16384] := by
    rw [inferWav_no_sentinel cexStage cexVocoder () [0] 0 hfree]
    exact pcm_half
  exact ⟨hfree, he, by rw [he]; decide⟩

/-- Claim C3 (amended): on the empty input and any maxChars, the sovits-rs
`cut_texts` returns normally but with a single-element list containing the
empty string, and the src revision (with `cut2`) aborts inside `split`
(modelled as `none`) rather than returning a list. -/
theorem c3_cut_texts_empty (n : Nat) : cutTexts "" n = [""] ∧ cutTextsV2 "" n = none := by
  constructor
  · simp [cutTexts, cut3, trimCharBoth, mergeShortTextInArray, splitChar, joinChar]
  · simp [cutTextsV2, cut2, cut3, splitV2, trimCharBoth, splitChar, joinChar, replacePairWith]

/-- Witness for C3 at a concrete maxChars. -/
theorem c3_cut_texts_empty_witness : cutTexts "" 30 = [""] ∧ cutTextsV2 "" 30 = none :=
  c3_cut_texts_empty 30

/-- Counterexample to claim C3 as stated: on the empty input `cut_texts` does
not return the empty list — it returns the one-element list holding the empty
string. -/
theorem c3_counterexample :
    cutTexts "" 30 = [""] ∧ cutTexts "" 30 ≠ ([] : List String) := by
  exact ⟨by decide, by decide⟩

/-- Claim C6 (amended): the special hundreds band of `normalize_numbers` is
2010..2999 (not 1000..2999): 2000 → "two thousand"; 2001..2009 → "two
thousand " + convert(n mod 100); 2010..2999 with n mod 100 = 0 →
convert(n/100) + " hundred"; the rest of 1000..2999 → the standard conversion
with ", " replaced by a space; every other value → the standard conversion;
anchored at the spec's own example 2500 → "twenty five hundred". -/
theorem c6_integer_bands (n : Nat) :
    (n = 2000 → normalizeIntegerToken n = "two thousand") ∧
    (2001 ≤ n → n ≤ 2009 →
      normalizeIntegerToken n = "two thousand " ++ englishConvert (n % 100)) ∧
    (2010 ≤ n → n ≤ 2999 → n % 100 = 0 →
      normalizeIntegerToken n = englishConvert (n / 100) ++ " hundred") ∧
    (1000 ≤ n → n ≤ 2999 → n ≠ 2000 → ¬ (2001 ≤ n ∧ n ≤ 2009) →
      ¬ (2010 ≤ n ∧ n % 100 = 0) →
      normalizeIntegerToken n = replaceCommaSpace (englishConvert n)) ∧
    ((n < 1000 ∨ 2999 < n) → normalizeIntegerToken n = englishConvert n) ∧
    normalizeIntegerToken 2500 = "twenty five hundred" ∧
    normalizeIntegerToken 2005 = "two thousand five" ∧
    normalizeIntegerToken 123 = "one hundred and twenty three" := by
  refine ⟨?_, ?_, ?_, ?_, ?_, by decide, by decide, by decide⟩ <;>
    (intros; unfold normalizeIntegerToken; split_ifs <;> first | rfl | omega)

/-- Witness for C6 in the corrected hundreds band. -/
theorem c6_integer_bands_witness :
    normalizeIntegerToken 2100 = englishConvert (2100 / 100) ++ " hundred" :=
  (c6_integer_bands 2100).2.2.1 (by decide) (by decide) (by decide)

/-- Counterexample to claim C6 as stated: 1000 lies in the claim's
1000..2999-with-mod-100-zero band, whose promised reading is
convert(1000/100) + " hundred" = "ten hundred", but the code produces
"one thousand". -/
theorem c6_counterexample :
    normalizeIntegerToken 1000 = "one thousand" ∧
    englishConvert (1000 / 100) ++ " hundred" = "ten hundred" ∧
    normalizeIntegerToken 1000 ≠ englishConvert (1000 / 100) ++ " hundred" := by
  refine ⟨by decide, by decide, by decide⟩



theorem digitZh_cases (c : Char) : digitZh c = c ∨ digitZh c ∈ zhNumChars := by
  unfold digitZh
  split <;> first | (right; decide) | (left; rfl)

theorem uintZh_mem (p : Nat) (u : Char) (h : uintZh p = some u) : u ∈ zhNumChars := by
  unfold uintZh at h
  split at h <;> simp_all <;> subst h <;> decide

theorem headD_mem {α : Type} (l : List α) (d : α) (h : l ≠ []) : l.headD d ∈ l := by
  cases l with
  | nil => exact absurd rfl h
  | cons a t => simp

theorem elideLeadingOneTen_subset (l : List Char) :
    ∀ c ∈ elideLeadingOneTen l, c ∈ l := by
  unfold elideLeadingOneTen
  split
  · exact fun c hc => List.mem_cons_of_mem _ hc
  · exact fun c hc => hc

theorem getValueFuel_subset (fuel : Nat) :
    ∀ (value : List Char) (useZero : Bool) (c : Char),
      c ∈ getValueFuel fuel value useZero → c ∈ value ∨ c ∈ zhNumChars := by
  induction fuel with
  | zero => intro value useZero c hc; simp [getValueFuel] at hc
  | succ n ih =>
    intro value useZero c hc
    simp only [getValueFuel] at hc
    split_ifs at hc with h0 h1 h2
    · simp at hc
    · have hne : stripZeros value ≠ [] := by
        intro he
        rw [he] at h1
        simp at h1
      have hhead : (stripZeros value).headD '0' ∈ value :=
        (List.dropWhile_sublist _).subset (headD_mem _ _ hne)
      simp only [List.mem_cons, List.not_mem_nil, or_false] at hc
      rcases hc with hc | hc
      · right; rw [hc]; decide
      · rcases digitZh_cases ((stripZeros value).headD '0') with hd | hd
        · left; rw [hc, hd]; exact hhead
        · right; rw [hc]; exact hd
    · have hne : stripZeros value ≠ [] := by
        intro he
        rw [he] at h1
        simp at h1
      have hhead : (stripZeros value).headD '0' ∈ value :=
        (List.dropWhile_sublist _).subset (headD_mem _ _ hne)
      simp only [List.mem_cons, List.not_mem_nil, or_false] at hc
      rcases digitZh_cases ((stripZeros value).headD '0') with hd | hd
      · left; rw [hc, hd]; exact hhead
      · right; rw [hc]; exact hd
    · rw [List.mem_append, List.mem_append] at hc
      rcases hc with (hm | hm) | hm
      · rcases ih _ true c hm with h | h
        · exact Or.inl (List.take_subset _ _ h)
        · exact Or.inr h
      · revert hm
        split
        · rename_i u hu
          intro hm
          simp only [List.mem_cons, List.not_mem_nil, or_false] at hm
          exact Or.inr (hm ▸ uintZh_mem _ u hu)
        · intro hm
          simp at hm
      · rcases ih _ true c hm with h | h
        · exact Or.inl (List.drop_subset _ _ h)
        · exact Or.inr h

theorem getValue_subset (value : List Char) (useZero : Bool) (c : Char)
    (hc : c ∈ getValue value useZero) : c ∈ value ∨ c ∈ zhNumChars :=
  getValueFuel_subset value.length value useZero c hc

theorem verbalizeDigits_subset (value : List Char) (altOne : Bool) (c : Char)
    (hc : c ∈ verbalizeDigits value altOne) : c ∈ value ∨ c ∈ '幺' :: zhNumChars := by
  simp only [verbalizeDigits, List.map_map, List.mem_map, Function.comp] at hc
  obtain ⟨a, ha, hcb⟩ := hc
  by_cases hone : altOne ∧ digitZh a = '一'
  · right
    rw [← hcb]
    simp [hone]
  · rw [← hcb]
    simp only [if_neg hone]
    rcases digitZh_cases a with hd | hd
    · left; rw [hd]; exact ha
    · right; exact List.mem_cons_of_mem _ hd

theorem verbalizeCardinal_subset (s : List Char) (b : Bool) (c : Char)
    (hc : c ∈ verbalizeCardinal s b) : c ∈ s ∨ c ∈ '幺' :: zhNumChars := by
  simp only [verbalizeCardinal] at hc
  split_ifs at hc with h0 h1 h2
  · exact Or.inl hc
  · exact verbalizeDigits_subset s true c hc
  · right; rw [List.mem_singleton.mp hc]; decide
  · have := elideLeadingOneTen_subset _ c hc
    rcases getValue_subset _ true c this with h | h
    · exact Or.inl ((List.dropWhile_sublist _).subset h)
    · exact Or.inr (List.mem_cons_of_mem _ h)

theorem num2str_subset (value : List Char) (b : Bool) (c : Char)
    (hc : c ∈ num2str value b) : c ∈ value ∨ c ∈ '点' :: '幺' :: zhNumChars := by
  simp only [num2str] at hc
  split at hc
  · rename_i int dec hsplit
    have hsp := hsplit
    simp only [splitOnceDot] at hsp
    split_ifs at hsp with hdot
    have h12 := Option.some.inj hsp
    rw [Prod.mk.injEq] at h12
    obtain ⟨he1, he2⟩ := h12
    have hint : ∀ x ∈ int, x ∈ value := by
      rw [← he1]
      exact fun x hx => List.takeWhile_subset _ hx
    have hdec : ∀ x ∈ dec, x ∈ value := by
      rw [← he2]
      exact fun x hx => (List.dropWhile_sublist _).subset (List.mem_of_mem_tail hx)
    have hdecr : ∀ x ∈ (List.dropWhile (fun y => decide (y = '0')) dec.reverse).reverse, x ∈ value := by
      intro x hx
      rw [List.mem_reverse] at hx
      have hx2 := (List.dropWhile_sublist _).subset hx
      rw [List.mem_reverse] at hx2
      exact hdec x hx2
    split_ifs at hc with hd hz
    · rcases verbalizeCardinal_subset int false c hc with h | h
      · exact Or.inl (hint c h)
      · exact Or.inr (List.mem_cons_of_mem _ h)
    · rw [List.mem_append] at hc
      rcases hc with hm | hm
      · right
        rw [List.mem_singleton.mp hm]
        decide
      · simp only [List.mem_cons] at hm
        rcases hm with hm | hm
        · right; rw [hm]; decide
        · rcases verbalizeDigits_subset _ false c hm with h | h
          · exact Or.inl (hdecr c h)
          · exact Or.inr (List.mem_cons_of_mem _ h)
    · rw [List.mem_append] at hc
      rcases hc with hm | hm
      · rcases verbalizeCardinal_subset int false c hm with h | h
        · exact Or.inl (hint c h)
        · exact Or.inr (List.mem_cons_of_mem _ h)
      · simp only [List.mem_cons] at hm
        rcases hm with hm | hm
        · right; rw [hm]; decide
        · rcases verbalizeDigits_subset _ false c hm with h | h
          · exact Or.inl (hdecr c h)
          · exact Or.inr (List.mem_cons_of_mem _ h)
  · rcases verbalizeCardinal_subset value b c hc with h | h
    · exact Or.inl h
    · exact Or.inr (List.mem_cons_of_mem _ h)


theorem num2str_not_fu (value : List Char) (b : Bool) (h : '负' ∉ value) :
    '负' ∉ num2str value b := by
  intro hm
  rcases num2str_subset value b _ hm with h1 | h1
  · exact h h1
  · revert h1; decide

theorem head_ne_of_not_mem (l : List Char) (c : Char) (h : c ∉ l) : l.head? ≠ some c := by
  cases l with
  | nil => simp
  | cons a t =>
    intro he
    rw [List.head?_cons, Option.some_inj] at he
    subst he
    exact h (List.mem_cons_self a t)

/-- Claim C7 (amended): in `replace_number` and `replace_frac` a leading minus
is rendered 负 exactly when the matched digit text is not all '0' characters;
in `replace_percentage` and `replace_negative_num` (and hence for range
endpoints delegated to `replace_number`) a leading minus is always rendered
负, with no zero check. -/
theorem c7_sign_rendering (sign : Bool) (num nom den per : List Char)
    (hnum : '负' ∉ num) (hnom : '负' ∉ nom) (hden : '负' ∉ den) :
    ((replaceNumberCaps sign (some num) none).head? = some '负' ↔
      sign = true ∧ isAllZero num = false) ∧
    ((replaceFracCaps sign nom den).head? = some '负' ↔
      sign = true ∧ isAllZero nom = false) ∧
    ((replacePercentageCaps sign per).head? = some '负' ↔ sign = true) ∧
    ((replaceNegativeNumCaps sign num).head? = some '负' ↔ sign = true) := by
  refine ⟨?_, ?_, ?_, ?_⟩
  · simp only [replaceNumberCaps, Option.getD_some]
    by_cases hcond : sign = true ∧ ¬ isAllZero num = true
    · rw [if_pos hcond]
      simp only [List.head?_cons, Option.some.injEq, true_iff]
      exact ⟨hcond.1, by simpa using hcond.2⟩
    · rw [if_neg hcond]
      constructor
      · intro hh
        exact absurd hh (head_ne_of_not_mem _ _ (num2str_not_fu num _ hnum))
      · intro hh
        exact absurd ⟨hh.1, by simp [hh.2]⟩ hcond
  · simp only [replaceFracCaps]
    by_cases hcond : sign = true ∧ ¬ isAllZero nom = true
    · rw [if_pos hcond]
      simp only [List.cons_append, List.head?_cons, Option.some.injEq, true_iff]
      exact ⟨hcond.1, by simpa using hcond.2⟩
    · rw [if_neg hcond]
      simp only [List.nil_append]
      constructor
      · intro hh
        have hm : '负' ∉ num2str den false ++ '分' :: '之' :: num2str nom false := by
          intro hmem
          rw [List.mem_append] at hmem
          rcases hmem with hm | hm
          · exact num2str_not_fu den false hden hm
          · simp only [List.mem_cons] at hm
            rcases hm with hm | hm | hm
            · revert hm; decide
            · revert hm; decide
            · exact num2str_not_fu nom false hnom hm
        exact absurd hh (head_ne_of_not_mem _ _ hm)
      · intro hh
        exact absurd ⟨hh.1, by simp [hh.2]⟩ hcond
  · simp only [replacePercentageCaps]
    cases sign with
    | true => simp
    | false => simp
  · simp only [replaceNegativeNumCaps]
    cases sign with
    | true => simp
    | false =>
      simp only [if_neg (by decide : ¬ (false = true)), List.nil_append, Bool.false_eq_true,
        iff_false]
      exact head_ne_of_not_mem _ _ (num2str_not_fu num false hnum)

/-- Witness for C7 at concrete matches. -/
theorem c7_sign_rendering_witness :
    ((replaceNumberCaps true (some "12".toList) none).head? = some '负' ↔
      true = true ∧ isAllZero "12".toList = false) ∧
    ((replaceFracCaps true "1".toList "3".toList).head? = some '负' ↔
      true = true ∧ isAllZero "1".toList = false) ∧
    ((replacePercentageCaps true "0".toList).head? = some '负' ↔ true = true) ∧
    ((replaceNegativeNumCaps true "12".toList).head? = some '负' ↔ true = true) :=
  c7_sign_rendering true "12".toList "1".toList "3".toList "0".toList
    (by decide) (by decide) (by decide)

/-- Counterexample to claim C7 as stated: the percentage replacement renders
负 for "-0%" although the matched number is zero — the repo's own test
asserts this output. -/
theorem c7_counterexample :
    String.mk (replacePercentageCaps true "0".toList) = "负百分之零" ∧
    isAllZero "0".toList = true := by
  exact ⟨by decide, by decide⟩

theorem verbalizeDigits_spec_yao (l : List Char) (h : ∀ c ∈ l, c ∈ digitChars) :
    verbalizeDigits l true = specDigitByDigitYao l := by
  simp only [verbalizeDigits, specDigitByDigitYao, List.map_map]
  refine List.map_congr_left ?_
  intro a ha
  have hd := h a ha
  fin_cases hd <;> rfl

theorem verbalizeDigits_spec_plain (l : List Char) (h : ∀ c ∈ l, c ∈ digitChars) :
    verbalizeDigits l false = specDigitByDigitPlain l := by
  simp only [verbalizeDigits, specDigitByDigitPlain, List.map_map]
  refine List.map_congr_left ?_
  intro a ha
  have hd := h a ha
  fin_cases hd <;> rfl

theorem stripZeros_of_head_ne (l : List Char) (h : l.headD ' ' ≠ '0') :
    stripZeros l = l := by
  cases l with
  | nil => rfl
  | cons a t =>
    simp only [List.headD_cons] at h
    simp [stripZeros, List.dropWhile_cons, h]

theorem dot_not_mem_of_digits (l : List Char) (h : ∀ c ∈ l, c ∈ digitChars) :
    '.' ∉ l := by
  intro hm
  have := h _ hm
  revert this
  decide

theorem fu_not_mem_of_digits (l : List Char) (h : ∀ c ∈ l, c ∈ digitChars) :
    '负' ∉ l := by
  intro hm
  have := h _ hm
  revert this
  decide

/-- Claim C4 (amended): the digit-by-digit limit of `verbalize_cardinal`
applies only to UNSIGNED matches (`with_limit` is the emptiness of the
rendered sign).  Without a minus: at most 13 digits with no leading zero read
as magnitudes with the leading 一十 elided, otherwise digit-by-digit with 幺.
With a minus and a nonzero value the digits are always read as magnitudes
(leading zeros stripped) behind 负; with a minus and an all-zero value the
sign is dropped and the zeros are read digit by digit.  Anchored at the
spec's three examples. -/
theorem c4_number_reading (ds : List Char) (h : ∀ c ∈ ds, c ∈ digitChars) :
    ((13 < ds.length ∨ ds.headD ' ' = '0') →
      replaceNumberCaps false (some ds) none = specDigitByDigitYao ds) ∧
    (ds ≠ [] → ds.length ≤ 13 → ds.headD ' ' ≠ '0' →
      replaceNumberCaps false (some ds) none = elideLeadingOneTen (getValue ds true)) ∧
    (isAllZero ds = false →
      replaceNumberCaps true (some ds) none = '负' :: verbalizeCardinal ds false) ∧
    (isAllZero ds = true →
      replaceNumberCaps true (some ds) none = specDigitByDigitYao ds) ∧
    String.mk (replaceNumberCaps false (some "1234567890".toList) none) =
      "十二亿三千四百五十六万七千八百九十" ∧
    String.mk (replaceNumberCaps false (some "0123".toList) none) = "零幺二三" ∧
    String.mk (replaceNumberCaps false (some "12345678901234".toList) none) =
      "幺二三四五六七八九零幺二三四" := by
  have hdot := dot_not_mem_of_digits ds h
  have hnum2 : ∀ b, num2str ds b = verbalizeCardinal ds b := by
    intro b
    rw [num2str, show splitOnceDot ds = none from by simp [splitOnceDot, hdot]]
  have hfalse : replaceNumberCaps false (some ds) none = num2str ds true := by
    rw [replaceNumberCaps, if_neg (by simp), Option.getD_some]
  have hempty : ds ≠ [] → ¬ ds.isEmpty = true := fun hne hh => hne (List.isEmpty_iff.mp hh)
  refine ⟨?_, ?_, ?_, ?_, by decide, by decide, by decide⟩
  · intro hlim
    have hne : ds ≠ [] := by
      rcases hlim with hl | hl
      · intro he; subst he; simp at hl
      · intro he; subst he; simp at hl
    have hlim2 : ds.headD ' ' = '0' ∨ maxNumericLength < ds.length := by
      rcases hlim with hl | hl
      · exact Or.inr (by simpa [maxNumericLength] using hl)
      · exact Or.inl hl
    rw [hfalse, hnum2, verbalizeCardinal, if_neg (hempty hne), if_pos ⟨rfl, hlim2⟩]
    exact verbalizeDigits_spec_yao ds h
  · intro hne hlen hhead
    have hlim2 : ¬ (true = true ∧ (ds.headD ' ' = '0' ∨ maxNumericLength < ds.length)) := by
      rintro ⟨-, hl | hl⟩
      · exact hhead hl
      · simp only [maxNumericLength] at hl
        omega
    rw [hfalse, hnum2, verbalizeCardinal, if_neg (hempty hne), if_neg hlim2,
      stripZeros_of_head_ne ds hhead, if_neg (hempty hne)]
  · intro hz
    rw [replaceNumberCaps, if_pos ⟨rfl, by simp [hz]⟩, Option.getD_some, hnum2]
  · intro hz
    rw [replaceNumberCaps, if_neg (by simp [hz]), Option.getD_some, hnum2, verbalizeCardinal]
    by_cases hne : ds.isEmpty = true
    · rw [if_pos hne]
      rw [List.isEmpty_iff] at hne
      subst hne
      rfl
    · have hds : ds.headD ' ' = '0' := by
        cases ds with
        | nil => exact absurd rfl hne
        | cons a t =>
          have := hz
          simp only [isAllZero, List.all_cons, Bool.and_eq_true, decide_eq_true_eq] at this
          simp [this.1]
      rw [if_neg hne, if_pos ⟨rfl, Or.inl hds⟩]
      exact verbalizeDigits_spec_yao ds h

/-- Witness for C4: the leading-zero unsigned match "0123" is read digit by
digit with 幺. -/
theorem c4_number_reading_witness :
    replaceNumberCaps false (some "0123".toList) none = specDigitByDigitYao "0123".toList :=
  (c4_number_reading "0123".toList (by decide)).1 (Or.inr (by decide))

/-- Counterexample to claim C4 as stated: with a leading minus the
leading-zero (and over-length) digit-by-digit rule is NOT applied — "-0123"
is read 负一百二十三, not 负零幺二三. -/
theorem c4_counterexample :
    String.mk (replaceNumberCaps true (some "0123".toList) none) = "负一百二十三" ∧
    replaceNumberCaps true (some "0123".toList) none ≠
      '负' :: specDigitByDigitYao "0123".toList := by
  exact ⟨by decide, by decide⟩



theorem timeNum2Str_30 : timeNum2Str ['3', '0'] = ['三', '十'] := by decide

theorem timeNum2Str_00 : timeNum2Str ['0', '0'] = ['零'] := by decide

/-- C8: the chronology normalizer reads years digit by digit and months, days
and cardinal parts through the cardinal verbalizer; minute 30 becomes 半,
minute 00 is omitted, a leading zero in a minute or second is read 零; and
the two matches of the spec example compose to the expected sentence. -/
theorem c8_chronology :
    (∀ y, (∀ c ∈ y, c ∈ digitChars) →
      replaceDateCaps (some y) none none = specDigitByDigitPlain y ++ ['年']) ∧
    (∀ m, replaceDateCaps none (some m) none = verbalizeCardinal m false ++ ['月']) ∧
    (∀ d, replaceDateCaps none none (some d) = verbalizeCardinal d false ++ ['日']) ∧
    (∀ h s, replaceTimeCaps h ['3', '0'] s =
      num2str h false ++ ['点', '半'] ++
        ((s.map (fun m => timeNum2Str m ++ ['秒'])).getD [])) ∧
    (∀ h s, replaceTimeCaps h ['0', '0'] s =
      num2str h false ++ ['点'] ++
        ((s.map (fun m => timeNum2Str m ++ ['秒'])).getD [])) ∧
    (∀ c, c ∈ ['1', '2', '3', '4', '5', '6', '7', '8', '9'] →
      timeNum2Str ['0', c] = '零' :: num2str [c] false) ∧
    (replaceDateCaps (some "2023".toList) (some "10".toList) (some "25".toList) ++
        "，会议时间为".toList ++
        replaceTimeRangeCaps "8".toList "30".toList none "12".toList "00".toList none =
      "二零二三年十月二十五日，会议时间为八点半至十二点".toList) := by
  refine ⟨?_, ?_, ?_, ?_, ?_, ?_, ?_⟩
  · intro y hy
    simp [replaceDateCaps]
    rw [verbalizeDigits_spec_plain y hy]
  · intro m
    simp [replaceDateCaps]
  · intro d
    simp [replaceDateCaps]
  · intro h s
    simp [replaceTimeCaps, timeNum2Str_30]
  · intro h s
    have h1 : (['零'] : List Char) = ['三', '十'] ↔ False := by decide
    simp [replaceTimeCaps, timeNum2Str_00, h1]
  · intro c hc
    fin_cases hc <;> decide
  · decide

theorem c8_chronology_witness :
    replaceDateCaps (some "2023".toList) none none = "二零二三年".toList ∧
    timeNum2Str ['0', '3'] = '零' :: num2str ['3'] false := by
  constructor
  · rw [c8_chronology.1 "2023".toList (by decide)]; decide
  · exact c8_chronology.2.2.2.2.2.1 '3' (by decide)


theorem modifiedTone_oracle_congr (w pos : List Char) (finals : List (List Char))
    (j1 j2 : List Char → List (List Char)) (h : j1 w = j2 w) :
    modifiedTone w pos finals j1 = modifiedTone w pos finals j2 := by
  simp only [modifiedTone, neuralSandhi, threeSandhi, splitWord, h]

/-- C9: the tone-sandhi stage turns 水果 [shui3, guo3] into [shui2, guo3]
(two-syllable all-tone-3 word), 不是 [bu4, shi4] into [bu2, shi4] (不
before tone 4) and 一个 [yi1, ge4] into [yi2, ge4] (一 before tone 4),
for any segmenter that keeps each of these dictionary words whole. -/
theorem c9_tone_sandhi (j : List Char → List (List Char))
    (h1 : j "水果".toList = ["水果".toList])
    (h2 : j "不是".toList = ["不是".toList])
    (h3 : j "一个".toList = ["一个".toList]) :
    modifiedTone "水果".toList "n".toList ["shui3".toList, "guo3".toList] j =
      ["shui2".toList, "guo3".toList] ∧
    modifiedTone "不是".toList "v".toList ["bu4".toList, "shi4".toList] j =
      ["bu2".toList, "shi4".toList] ∧
    modifiedTone "一个".toList "m".toList ["yi1".toList, "ge4".toList] j =
      ["yi2".toList, "ge4".toList] := by
  refine ⟨?_, ?_, ?_⟩
  · rw [modifiedTone_oracle_congr _ _ _ j (fun w => [w]) (by rw [h1])]
    decide
  · rw [modifiedTone_oracle_congr _ _ _ j (fun w => [w]) (by rw [h2])]
    decide
  · rw [modifiedTone_oracle_congr _ _ _ j (fun w => [w]) (by rw [h3])]
    decide

theorem c9_tone_sandhi_witness :
    modifiedTone "水果".toList "n".toList ["shui3".toList, "guo3".toList]
        (fun w => [w]) = ["shui2".toList, "guo3".toList] ∧
    modifiedTone "不是".toList "v".toList ["bu4".toList, "shi4".toList]
        (fun w => [w]) = ["bu2".toList, "shi4".toList] ∧
    modifiedTone "一个".toList "m".toList ["yi1".toList, "ge4".toList]
        (fun w => [w]) = ["yi2".toList, "ge4".toList] :=
  c9_tone_sandhi (fun w => [w]) rfl rfl rfl


theorem packLines_acc (maxNum : Nat) :
    ∀ (inps : List String) (acc : List String × Nat × String),
      (∀ l ∈ acc.1, maxNum < l.length) → acc.2.1 = acc.2.2.length →
      (∀ l ∈ (inps.foldl
          (fun (acc : List String × Nat × String) seg =>
            let summ := acc.2.1 + seg.length
            let tmp := acc.2.2 ++ seg
            if maxNum < summ then (acc.1 ++ [tmp], 0, "") else (acc.1, summ, tmp)) acc).1,
        maxNum < l.length) ∧
      (inps.foldl
          (fun (acc : List String × Nat × String) seg =>
            let summ := acc.2.1 + seg.length
            let tmp := acc.2.2 ++ seg
            if maxNum < summ then (acc.1 ++ [tmp], 0, "") else (acc.1, summ, tmp)) acc).2.1 =
        (inps.foldl
          (fun (acc : List String × Nat × String) seg =>
            let summ := acc.2.1 + seg.length
            let tmp := acc.2.2 ++ seg
            if maxNum < summ then (acc.1 ++ [tmp], 0, "") else (acc.1, summ, tmp)) acc).2.2.length := by
  intro inps
  induction inps with
  | nil => intro acc ha hb; exact ⟨ha, hb⟩
  | cons s rest ih =>
    intro acc ha hb
    simp only [List.foldl_cons]
    by_cases hc : maxNum < acc.2.1 + s.length
    · have hst : (if maxNum < acc.2.1 + s.length then
          (acc.1 ++ [acc.2.2 ++ s], 0, "") else (acc.1, acc.2.1 + s.length, acc.2.2 ++ s)) =
          (acc.1 ++ [acc.2.2 ++ s], (0 : Nat), ("" : String)) := if_pos hc
      rw [hst]
      apply ih
      · intro l hl
        rcases List.mem_append.mp hl with h | h
        · exact ha l h
        · have hl2 : l = acc.2.2 ++ s := List.mem_singleton.mp h
          subst hl2
          rw [String.length_append, ← hb]
          exact hc
      · rfl
    · have hst : (if maxNum < acc.2.1 + s.length then
          (acc.1 ++ [acc.2.2 ++ s], 0, "") else (acc.1, acc.2.1 + s.length, acc.2.2 ++ s)) =
          (acc.1, acc.2.1 + s.length, acc.2.2 ++ s) := if_neg hc
      rw [hst]
      apply ih
      · exact ha
      · rw [String.length_append, hb]

/-- C5: every line flushed by the greedy packing loop of `cut2` other than the
trailing remainder has MORE than `maxNum` characters (a line is emitted only
when the running count exceeds the bound, not before), and the final fold step
does append a short last line to its predecessor, shrinking the line count by
one. -/
theorem c5_greedy_packing :
    (∀ (inps : List String) (maxNum : Nat) (l : String),
      l ∈ (packLines inps maxNum).dropLast → maxNum < l.length) ∧
    (∀ (opts : List String) (maxNum : Nat), 1 < opts.length →
      (opts.getLastD "").length < maxNum →
      cut2Fold opts maxNum = modifyLast opts.dropLast (· ++ opts.getLastD "") ∧
      (cut2Fold opts maxNum).length + 1 = opts.length) := by
  constructor
  · intro inps maxNum l hl
    have hinv := packLines_acc maxNum inps ([], 0, "") (by intro x hx; cases hx) rfl
    have hstep : packLines inps maxNum =
        (if (inps.foldl
            (fun (acc : List String × Nat × String) seg =>
              let summ := acc.2.1 + seg.length
              let tmp := acc.2.2 ++ seg
              if maxNum < summ then (acc.1 ++ [tmp], 0, "") else (acc.1, summ, tmp))
            ([], 0, "")).2.2 ≠ "" then
          (inps.foldl
            (fun (acc : List String × Nat × String) seg =>
              let summ := acc.2.1 + seg.length
              let tmp := acc.2.2 ++ seg
              if maxNum < summ then (acc.1 ++ [tmp], 0, "") else (acc.1, summ, tmp))
            ([], 0, "")).1 ++
            [(inps.foldl
              (fun (acc : List String × Nat × String) seg =>
                let summ := acc.2.1 + seg.length
                let tmp := acc.2.2 ++ seg
                if maxNum < summ then (acc.1 ++ [tmp], 0, "") else (acc.1, summ, tmp))
              ([], 0, "")).2.2]
        else (inps.foldl
            (fun (acc : List String × Nat × String) seg =>
              let summ := acc.2.1 + seg.length
              let tmp := acc.2.2 ++ seg
              if maxNum < summ then (acc.1 ++ [tmp], 0, "") else (acc.1, summ, tmp))
            ([], 0, "")).1) := rfl
    rw [hstep] at hl
    by_cases hr : (inps.foldl
        (fun (acc : List String × Nat × String) seg =>
          let summ := acc.2.1 + seg.length
          let tmp := acc.2.2 ++ seg
          if maxNum < summ then (acc.1 ++ [tmp], 0, "") else (acc.1, summ, tmp))
        ([], 0, "")).2.2 ≠ ""
    · rw [if_pos hr, List.dropLast_concat] at hl
      exact hinv.1 l hl
    · rw [if_neg hr] at hl
      exact hinv.1 l (List.dropLast_subset _ hl)
  · intro opts maxNum h1 h2
    have hcond : 1 < opts.length ∧ (opts.getLastD "").length < maxNum := ⟨h1, h2⟩
    constructor
    · exact if_pos hcond
    · simp only [cut2Fold, if_pos hcond, modifyLast_length, List.length_dropLast]
      omega

theorem c5_greedy_packing_witness :
    2 < ("一。二二。" : String).length ∧
    cut2Fold ["一一一", "二"] 2 =
      modifyLast (["一一一", "二"] : List String).dropLast
        (· ++ (["一一一", "二"] : List String).getLastD "") ∧
    (cut2Fold ["一一一", "二"] 2).length + 1 = 2 :=
  ⟨c5_greedy_packing.1 ["一。", "二二。", "三三三。"] 2
      "一。二二。" (by decide),
    (c5_greedy_packing.2 ["一一一", "二"] 2 (by decide) (by decide)).1,
    (c5_greedy_packing.2 ["一一一", "二"] 2 (by decide) (by decide)).2⟩

/-- Counterexample to the spec sentence "pack pieces into lines not exceeding
maxChars": with `max_num = 2` the packer emits the line 一。二二。
of 5 characters, since a line is flushed only after the running count already
exceeds the bound. -/
theorem c5_counterexample :
    packLines ["一。", "二二。", "三三三。"] 2 =
      ["一。二二。", "三三三。"] ∧
    2 < ("一。二二。" : String).length := by
  constructor
  · decide
  · decide


theorem getLastD_eq_getD {a : Type} (l : List a) (d : a) :
    l.getLastD d = l.getD (l.length - 1) d := by
  rw [List.getD_eq_getElem?_getD, List.getLastD_eq_getLast?, List.getLast?_eq_getElem?]

theorem getD_concat {a : Type} (l : List a) (x d : a) :
    (l ++ [x]).getD l.length d = x := by
  rw [List.getD_append_right l [x] d l.length (le_refl _)]
  simp

theorem modifyLast_getD_lt {a : Type} (f : a → a) (l : List a) :
    ∀ (i : Nat) (d : a), i + 1 < l.length →
      (modifyLast l f).getD i d = l.getD i d := by
  induction l with
  | nil => intro i d h; exact absurd h (by simp)
  | cons x t ih =>
    intro i d h
    cases t with
    | nil => exact absurd h (by simp)
    | cons b r =>
      cases i with
      | zero => rfl
      | succ i =>
        have h2 : i + 1 < (b :: r).length := by
          simp only [List.length_cons] at h ⊢
          omega
        simp only [modifyLast, List.getD_cons_succ]
        exact ih i d h2

theorem modifyLast_getD_last {a : Type} (f : a → a) (l : List a) :
    ∀ (d : a), l ≠ [] →
      (modifyLast l f).getD (l.length - 1) d = f (l.getD (l.length - 1) d) := by
  induction l with
  | nil => intro d h; exact absurd rfl h
  | cons x t ih =>
    intro d h
    cases t with
    | nil => rfl
    | cons b r =>
      have ih2 := ih d (by simp)
      simp only [List.length_cons] at ih2 ⊢
      simp only [modifyLast, Nat.add_sub_cancel] at ih2 ⊢
      simp only [List.getD_cons_succ]
      exact ih2

theorem g2pItemStep_sum (p : List Char → Option (List Char))
    (acc : List (List Char) × List Nat) (cv : List Char × List Char)
    (h : acc.2.sum = acc.1.length) :
    (g2pItemStep p acc cv).2.sum = (g2pItemStep p acc cv).1.length := by
  unfold g2pItemStep
  dsimp only
  split
  · simp [h]
  · split
    · simp [h]
    · exact h

theorem g2pFold_sum (p : List Char → Option (List Char)) :
    ∀ (items : List (List Char × List Char)) (acc : List (List Char) × List Nat),
      acc.2.sum = acc.1.length →
      (items.foldl (g2pItemStep p) acc).2.sum = (items.foldl (g2pItemStep p) acc).1.length := by
  intro items
  induction items with
  | nil => intro acc h; exact h
  | cons cv rest ih =>
    intro acc h
    simp only [List.foldl_cons]
    exact ih (g2pItemStep p acc cv) (g2pItemStep_sum p acc cv h)

theorem g2pSegments_sum (p : List Char → Option (List Char))
    (si : List Char → List (List Char × List Char)) (segs : List (List Char)) :
    (g2pSegments p si segs).2.sum = (g2pSegments p si segs).1.length := by
  unfold g2pSegments
  have aux : ∀ (ss : List (List Char)) (acc : List (List Char) × List Nat),
      acc.2.sum = acc.1.length →
      (ss.foldl (fun acc seg => (si seg).foldl (g2pItemStep p) acc) acc).2.sum =
        (ss.foldl (fun acc seg => (si seg).foldl (g2pItemStep p) acc) acc).1.length := by
    intro ss
    induction ss with
    | nil => intro acc h; exact h
    | cons seg rest ih =>
      intro acc h
      simp only [List.foldl_cons]
      exact ih _ (g2pFold_sum p (si seg) acc h)
  exact aux segs ([], []) rfl

theorem chineseG2p_sum (or : CleanOracles) (text : List Char) :
    (chineseG2p or text).2.sum = (chineseG2p or text).1.length :=
  g2pSegments_sum or.pinyinToSymbol or.segItems (or.splitSentences text)

theorem cleanSpecial_sum (or : CleanOracles) (text : List Char) (sc : Char)
    (ts : List Char) :
    (cleanSpecial or text chineseLang sc ts).2.1.sum =
      (cleanSpecial or text chineseLang sc ts).1.length := by
  unfold cleanSpecial
  simp [chineseG2p_sum]

theorem cleanTextInf_zh (or : CleanOracles) (t : List Char) :
    (cleanTextInf or t chineseLang).2.1.sum = (cleanTextInf or t chineseLang).1.length := by
  have hp : ¬ (chineseLang ≠ englishLang ∧ chineseLang ≠ chineseLang ∧
      chineseLang ≠ japaneseLang) := by decide
  unfold cleanTextInf
  rw [if_neg hp]
  dsimp only
  split_ifs with hy hc hz h4
  · exact cleanSpecial_sum or t '￥' "SP2".toList
  · exact cleanSpecial_sum or t '^' "SP3".toList
  · exact chineseG2p_sum or (or.chineseNormalize t)
  · exact absurd rfl hz
  · exact absurd rfl hz

theorem cleanTextInf_non_zh (or : CleanOracles) (t lang2 : List Char)
    (h : lang2 ≠ chineseLang) : (cleanTextInf or t lang2).2.1 = [] := by
  unfold cleanTextInf
  by_cases he : lang2 = englishLang
  · subst he
    have hp : ¬ (englishLang ≠ englishLang ∧ englishLang ≠ chineseLang ∧
        englishLang ≠ japaneseLang) := by decide
    have hec : ¬ (englishLang = chineseLang) := by decide
    rw [if_neg hp]
    dsimp only
    split_ifs with hy hc hz
    · exact absurd hy.2 hec
    · exact absurd hc.2 hec
    · rfl
    · rfl
  · by_cases hj : lang2 = japaneseLang
    · subst hj
      have hp : ¬ (japaneseLang ≠ englishLang ∧ japaneseLang ≠ chineseLang ∧
          japaneseLang ≠ japaneseLang) := by decide
      have hjc : ¬ (japaneseLang = chineseLang) := by decide
      have hje : ¬ (japaneseLang = englishLang) := by decide
      rw [if_neg hp]
      dsimp only
      split_ifs with hy hc
      · exact absurd hy.2 hjc
      · exact absurd hc.2 hjc
      · rfl
    · have hp : lang2 ≠ englishLang ∧ lang2 ≠ chineseLang ∧ lang2 ≠ japaneseLang :=
        ⟨he, h, hj⟩
      have hec : ¬ (englishLang = chineseLang) := by decide
      rw [if_pos hp]
      dsimp only
      split_ifs with hy hc hz
      · exact absurd hy.2 hec
      · exact absurd hc.2 hec
      · rfl
      · rfl

theorem cleanTextInf_spanOk (or : CleanOracles) (t lang2 : List Char) :
    spanOk lang2 (cleanTextInf or t lang2).2.1
      (cleanedTextToSequence or (cleanTextInf or t lang2).1) := by
  constructor
  · intro hzh
    subst hzh
    unfold cleanedTextToSequence
    rw [List.length_map]
    exact cleanTextInf_zh or t
  · intro hne
    exact cleanTextInf_non_zh or t lang2 hne

theorem pushSpan_inv (st : CleanedText) (lang2 : List Char)
    (phones word2ph : List Nat) (normText : List Char) (hst : cleanedInv st)
    (hok : spanOk lang2 word2ph phones) :
    cleanedInv (pushSpan st lang2 phones word2ph normText) := by
  obtain ⟨h1, h2, h3, h4⟩ := hst
  unfold pushSpan
  split_ifs with hm hp
  · obtain ⟨hm1, hm2, hm3, hm4⟩ := hm
    refine ⟨?_, ?_, ?_, ?_⟩
    · simp only [modifyLast_length]
      exact h1
    · simp only [modifyLast_length]
      exact h2
    · simp only [modifyLast_length]
      exact h3
    · intro i hi
      dsimp only at hi ⊢
      by_cases hlast : i = st.langList.length - 1
      · subst hlast
        have hwne : st.word2phList ≠ [] := by
          have hwl : 0 < st.word2phList.length := by omega
          exact List.ne_nil_of_length_pos hwl
        have hpne : st.phonesList ≠ [] := by
          have hpl : 0 < st.phonesList.length := by omega
          exact List.ne_nil_of_length_pos hpl
        have hw : st.langList.length - 1 = st.word2phList.length - 1 := by omega
        have hph : st.langList.length - 1 = st.phonesList.length - 1 := by omega
        have hlval : st.langList.getD (st.langList.length - 1) [] = lang2 := by
          rw [← getLastD_eq_getD]
          exact hm4
        rw [hw, modifyLast_getD_last _ _ _ hwne, ← hw]
        rw [hph, modifyLast_getD_last _ _ _ hpne, ← hph]
        have hsp := h4 (st.langList.length - 1) (by omega)
        rw [hlval] at hsp
        rw [hlval]
        constructor
        · intro hzh
          rw [List.sum_append, List.length_append, hsp.1 hzh, hok.1 hzh]
        · intro hzne
          rw [hsp.2 hzne, hok.2 hzne]
          rfl
      · have hi2 : i + 1 < st.langList.length := by omega
        have hiw : i + 1 < st.word2phList.length := by omega
        have hip : i + 1 < st.phonesList.length := by omega
        rw [modifyLast_getD_lt _ _ _ _ hiw, modifyLast_getD_lt _ _ _ _ hip]
        exact h4 i hi
  · refine ⟨?_, ?_, ?_, ?_⟩
    · simp only [List.length_append, List.length_cons, List.length_nil]
      omega
    · simp only [List.length_append, List.length_cons, List.length_nil]
      omega
    · simp only [List.length_append, List.length_cons, List.length_nil]
      omega
    · intro i hi
      dsimp only at hi ⊢
      rw [List.length_append, List.length_cons, List.length_nil] at hi
      by_cases hilt : i < st.langList.length
      · have hiw : i < st.word2phList.length := by omega
        have hip : i < st.phonesList.length := by omega
        rw [List.getD_append _ _ _ _ hilt, List.getD_append _ _ _ _ hiw,
          List.getD_append _ _ _ _ hip]
        exact h4 i hilt
      · have hieq : i = st.langList.length := by omega
        subst hieq
        have hiw : st.langList.length = st.word2phList.length := by omega
        have hip : st.langList.length = st.phonesList.length := by omega
        rw [getD_concat]
        rw [hiw, getD_concat]
        rw [← h1, getD_concat]
        exact hok
  · exact ⟨h1, h2, h3, h4⟩

theorem processSpan_inv (or : CleanOracles) (st : CleanedText) (ei : Nat)
    (lang2 text2 : List Char) (hst : cleanedInv st) :
    cleanedInv (processSpan or st ei lang2 text2) := by
  unfold processSpan
  split
  · exact hst
  · exact pushSpan_inv st lang2 _ _ _ hst
      (cleanTextInf_spanOk or (injectPrefix ei lang2 text2) lang2)

theorem foldl_processSpan_inv (or : CleanOracles) :
    ∀ (ps : List (Nat × List Char × List Char)) (st : CleanedText),
      cleanedInv st →
      cleanedInv (ps.foldl (fun st p => processSpan or st p.1 p.2.1 p.2.2) st) := by
  intro ps
  induction ps with
  | nil => intro st h; exact h
  | cons p rest ih =>
    intro st h
    simp only [List.foldl_cons]
    exact ih _ (processSpan_inv or st p.1 p.2.1 p.2.2 h)

/-- C1: for every collaborator behaviour and every input, the four span lists
of `get_cleaned_text_final` stay parallel, every Chinese span satisfies
`sum word2ph = len phones`, and every non-Chinese span has an empty word2ph;
the invariant survives both freshly pushed spans and the same-language
merge. -/
theorem c1_span_invariant (or : CleanOracles) (shortText : List Char) :
    cleanedInv (getCleanedTextFinal or shortText) := by
  unfold getCleanedTextFinal
  have aux : ∀ (segs : List (List Char × List Char)) (st : CleanedText),
      cleanedInv st →
      cleanedInv (segs.foldl
        (fun st seg =>
          (langSegTexts2 or seg.2 seg.1).enum.foldl
            (fun st p => processSpan or st p.1 p.2.1 p.2.2) st) st) := by
    intro segs
    induction segs with
    | nil => intro st h; exact h
    | cons seg rest ih =>
      intro st h
      simp only [List.foldl_cons]
      exact ih _ (foldl_processSpan_inv or _ st h)
  refine aux (langSegTexts or shortText) ⟨[], [], [], []⟩ ⟨rfl, rfl, rfl, ?_⟩
  intro i hi
  exact absurd hi (by simp)


/-- C10: the title-prefix injection applies exactly to the sub-span at index 0
of a secondary segmentation whose first character is not numeric: the text
cleaned for that sub-span is the original text with 。 (Chinese) or ". "
(English) prepended, while every sub-span at a positive index is cleaned
unchanged; and only when the span is pushed as a NEW span (no same-language
merge with the previous span) is the emitted normalized text exactly the
cleaned prefixed text. -/
theorem c10_prefix_injection (or : CleanOracles) (st : CleanedText)
    (text2 : List Char) (hne : text2 ≠ [])
    (hnum : ¬ charIsNumericRust (text2.headD ' ')) :
    (processSpan or st 0 chineseLang text2 =
      pushSpan st chineseLang
        (cleanedTextToSequence or (cleanTextInf or ('。' :: text2) chineseLang).1)
        (cleanTextInf or ('。' :: text2) chineseLang).2.1
        (cleanTextInf or ('。' :: text2) chineseLang).2.2) ∧
    (processSpan or st 0 englishLang text2 =
      pushSpan st englishLang
        (cleanedTextToSequence or (cleanTextInf or ('.' :: ' ' :: text2) englishLang).1)
        (cleanTextInf or ('.' :: ' ' :: text2) englishLang).2.1
        (cleanTextInf or ('.' :: ' ' :: text2) englishLang).2.2) ∧
    (∀ (ei : Nat) (lang2 : List Char), ei ≠ 0 →
      processSpan or st ei lang2 text2 =
        pushSpan st lang2
          (cleanedTextToSequence or (cleanTextInf or text2 lang2).1)
          (cleanTextInf or text2 lang2).2.1
          (cleanTextInf or text2 lang2).2.2) ∧
    (¬ (0 < st.phonesList.length ∧ 0 < st.langList.length ∧
          0 < st.normTextList.length ∧ st.langList.getLastD [] = chineseLang) →
      0 < (trimWs (cleanTextInf or ('。' :: text2) chineseLang).2.2).length →
      (processSpan or st 0 chineseLang text2).normTextList.getLastD [] =
        (cleanTextInf or ('。' :: text2) chineseLang).2.2) := by
  have hie : ¬ (text2.isEmpty = true) := by
    cases text2 with
    | nil => exact absurd rfl hne
    | cons c r => simp
  have hinjzh : injectPrefix 0 chineseLang text2 = '。' :: text2 := by
    unfold injectPrefix
    rw [if_pos ⟨rfl, hnum⟩, if_pos (show chineseLang = chineseLang from rfl)]
  have hec : ¬ (englishLang = chineseLang) := by decide
  have hinjen : injectPrefix 0 englishLang text2 = '.' :: ' ' :: text2 := by
    unfold injectPrefix
    rw [if_pos ⟨rfl, hnum⟩, if_neg hec,
      if_pos (show englishLang = englishLang from rfl)]
  have hzh : processSpan or st 0 chineseLang text2 =
      pushSpan st chineseLang
        (cleanedTextToSequence or (cleanTextInf or ('。' :: text2) chineseLang).1)
        (cleanTextInf or ('。' :: text2) chineseLang).2.1
        (cleanTextInf or ('。' :: text2) chineseLang).2.2 := by
    unfold processSpan
    rw [if_neg hie]
    dsimp only
    rw [hinjzh]
  refine ⟨hzh, ?_, ?_, ?_⟩
  · unfold processSpan
    rw [if_neg hie]
    dsimp only
    rw [hinjen]
  · intro ei lang2 hei
    have hinj0 : injectPrefix ei lang2 text2 = text2 := by
      unfold injectPrefix
      exact if_neg (fun hx => hei hx.1)
    unfold processSpan
    rw [if_neg hie]
    dsimp only
    rw [hinj0]
  · intro hmerge htrim
    rw [hzh]
    unfold pushSpan
    rw [if_neg hmerge, if_pos htrim]
    dsimp only
    rw [getLastD_eq_getD]
    simp only [List.length_append, List.length_cons, List.length_nil,
      Nat.add_sub_cancel]
    rw [getD_concat]

theorem c10_prefix_injection_witness :
    processSpan cexOr ⟨[], [], [], []⟩ 0 chineseLang "包含".toList =
      pushSpan ⟨[], [], [], []⟩ chineseLang
        (cleanedTextToSequence cexOr
          (cleanTextInf cexOr ('。' :: "包含".toList) chineseLang).1)
        (cleanTextInf cexOr ('。' :: "包含".toList) chineseLang).2.1
        (cleanTextInf cexOr ('。' :: "包含".toList) chineseLang).2.2 ∧
    (processSpan cexOr ⟨[], [], [], []⟩ 0 chineseLang "包含".toList).normTextList.getLastD [] =
      (cleanTextInf cexOr ('。' :: "包含".toList) chineseLang).2.2 :=
  ⟨(c10_prefix_injection cexOr ⟨[], [], [], []⟩ "包含".toList (by decide) (by decide)).1,
    (c10_prefix_injection cexOr ⟨[], [], [], []⟩ "包含".toList (by decide)
        (by decide)).2.2.2 (by decide) (by decide)⟩

/-- Counterexample to the claim that a span built from a prefix-injected
sub-span is emitted beginning with the period symbol: on 包含AC hello with the
concrete collaborators `cexOr`, the English sub-span " hello" receives the
". " prefix but is then MERGED into the preceding same-language span "AC", so
the emitted normalized text begins with A and its phoneme-id sequence begins
with 0, not with the period id 3 or the comma id 1. -/
theorem c10_counterexample :
    getCleanedTextFinal cexOr "包含AC hello".toList =
      ⟨[[], [0, 0]], [[], []], [chineseLang, englishLang],
        ["。包含".toList, "AC.  hello".toList]⟩ ∧
    ¬ ("AC.  hello".toList.headD ' ' = '.') ∧
    ¬ ((([0, 0] : List Nat).headD 0 = 3) ∨ (([0, 0] : List Nat).headD 0 = 1)) := by
  refine ⟨by decide, by decide, by decide⟩

end GptSovits
